import Mathlib

/-!
Verification of the tsrf workspace dependency synchronization engine.

This file gives a shallow embedding of the core of the tsrf source
(src/buildinfo.ts, src/workspaces.ts, src/state.ts, src/utils.ts,
src/package.ts, src/tsconfig.ts) and proves properties of it.

Conventions of the embedding:
* JavaScript `Map` objects and plain JSON objects are embedded as
  association lists `List (String × β)`; `Map.set` / property assignment
  updates the first matching key in place (keeping its position) and
  otherwise appends, exactly like JavaScript key ordering; `delete`
  removes the key.  A JavaScript object never holds a duplicate key, so
  theorems that need it take an explicit `NodupKeys` hypothesis.
* File paths are root-relative strings; the node `path` functions
  (`resolve`, `relative`, `dirname`) composed by the source are embedded
  as segment-normalising functions on such strings.
* Fatal invariant violations (`process.exit(1)` after a failed registry
  lookup) are embedded as `Option`: `none` is the terminated process.
* Asynchronous reads are embedded as pure inputs: a function receives the
  parsed document (or, for the retrying reader, the sequence of read
  outcomes) instead of performing I/O.
-/

namespace Tsrf

/-! ### Association list maps (JavaScript `Map` / object semantics) -/

/-- Lookup of a key in an association list: the value of the first
matching entry, like JavaScript property access. -/
def lookupA {β : Type} (k : String) : List (String × β) → Option β
  | [] => none
  | (k', v) :: t => if k' = k then some v else lookupA k t

/-- JavaScript `map.set(k, v)` / `obj[k] = v`: replace the first entry
with key `k` in place, otherwise append the new entry at the end. -/
def setA {β : Type} (k : String) (v : β) : List (String × β) → List (String × β)
  | [] => [(k, v)]
  | (k', v') :: t => if k' = k then (k, v) :: t else (k', v') :: setA k v t

/-- JavaScript `delete obj[k]` / `map.delete(k)`: remove the entries with
key `k`. -/
def delA {β : Type} (k : String) : List (String × β) → List (String × β)
  | [] => []
  | (k', v') :: t => if k' = k then delA k t else (k', v') :: delA k t

/-- Keys of an association list. -/
def keysA {β : Type} (l : List (String × β)) : List String :=
  l.map Prod.fst

/-- A JavaScript object cannot hold the same key twice. -/
def NodupKeys {β : Type} (l : List (String × β)) : Prop :=
  (keysA l).Nodup

instance {β : Type} (l : List (String × β)) : Decidable (NodupKeys l) := by
  unfold NodupKeys; infer_instance

/-- JavaScript `Set` insertion: append the element unless it is already
present (sets keep insertion order). -/
def addToSet {α : Type} [DecidableEq α] (l : List α) (x : α) : List α :=
  if x ∈ l then l else l ++ [x]

/-- JavaScript `new Set(array)` spread back to an array: deduplicate
keeping the first occurrence of each element. -/
def dedupFirst {α : Type} [DecidableEq α] (l : List α) : List α :=
  l.foldl addToSet []

/-! #### Lemmas about the association operations -/

theorem lookupA_setA_self {β : Type} (k : String) (v : β) (l : List (String × β)) :
    lookupA k (setA k v l) = some v := by
  induction l with
  | nil => simp [setA, lookupA]
  | cons h t ih =>
    obtain ⟨k', v'⟩ := h
    by_cases hk : k' = k
    · simp [setA, hk, lookupA]
    · simp [setA, hk, lookupA, ih]

theorem lookupA_setA_ne {β : Type} (k k' : String) (v : β) (l : List (String × β))
    (h : k' ≠ k) : lookupA k' (setA k v l) = lookupA k' l := by
  induction l with
  | nil => simp [setA, lookupA, Ne.symm h]
  | cons hd t ih =>
    obtain ⟨k₀, v₀⟩ := hd
    by_cases hk : k₀ = k
    · subst hk
      simp [setA, lookupA, Ne.symm h]
    · simp [setA, hk, lookupA, ih]

theorem lookupA_delA_self {β : Type} (k : String) (l : List (String × β)) :
    lookupA k (delA k l) = none := by
  induction l with
  | nil => simp [delA, lookupA]
  | cons hd t ih =>
    obtain ⟨k₀, v₀⟩ := hd
    by_cases hk : k₀ = k
    · simp [delA, hk, ih]
    · simp [delA, hk, lookupA, ih]

theorem lookupA_delA_ne {β : Type} (k k' : String) (l : List (String × β))
    (h : k' ≠ k) : lookupA k' (delA k l) = lookupA k' l := by
  induction l with
  | nil => simp [delA]
  | cons hd t ih =>
    obtain ⟨k₀, v₀⟩ := hd
    by_cases hk : k₀ = k
    · subst hk
      simp [delA, lookupA, Ne.symm h, ih]
    · simp [delA, hk, lookupA, ih]

theorem keysA_setA {β : Type} (k : String) (v : β) (l : List (String × β)) :
    keysA (setA k v l) = if k ∈ keysA l then keysA l else keysA l ++ [k] := by
  induction l with
  | nil => simp [setA, keysA]
  | cons hd t ih =>
    obtain ⟨k₀, v₀⟩ := hd
    by_cases hk : k₀ = k
    · subst hk
      simp [setA, keysA]
    · simp only [setA, hk, if_false, keysA, List.map_cons] at ih ⊢
      rw [ih]
      by_cases hm : k ∈ List.map Prod.fst t
      · rw [if_pos hm, if_pos (List.mem_cons_of_mem _ hm)]
      · rw [if_neg hm, if_neg (by simp [hm, Ne.symm hk]), List.cons_append]

theorem nodupKeys_setA {β : Type} (k : String) (v : β) (l : List (String × β))
    (h : NodupKeys l) : NodupKeys (setA k v l) := by
  unfold NodupKeys at h ⊢
  rw [keysA_setA]
  by_cases hm : k ∈ keysA l
  · rwa [if_pos hm]
  · rw [if_neg hm, List.nodup_append]
    refine ⟨h, List.nodup_singleton _, ?_⟩
    intro a ha hb
    rw [List.mem_singleton] at hb
    subst hb
    exact hm ha

theorem keysA_delA_subset {β : Type} (k k' : String) (l : List (String × β)) :
    k' ∈ keysA (delA k l) → k' ∈ keysA l := by
  induction l with
  | nil => simp [delA]
  | cons hd t ih =>
    obtain ⟨k₀, v₀⟩ := hd
    by_cases hk : k₀ = k
    · simp only [delA, hk, if_true, keysA, List.map_cons, List.mem_cons]
      exact fun h => Or.inr (ih h)
    · simp only [delA, hk, if_false, keysA, List.map_cons, List.mem_cons] at ih ⊢
      rintro (h | h)
      · exact Or.inl h
      · exact Or.inr (ih h)

theorem nodupKeys_delA {β : Type} (k : String) (l : List (String × β))
    (h : NodupKeys l) : NodupKeys (delA k l) := by
  induction l with
  | nil => simpa [delA] using h
  | cons hd t ih =>
    obtain ⟨k₀, v₀⟩ := hd
    unfold NodupKeys keysA at h
    simp only [List.map_cons, List.nodup_cons] at h
    by_cases hk : k₀ = k
    · simpa [delA, hk] using ih h.2
    · unfold NodupKeys keysA
      simp only [delA, hk, if_false, List.map_cons, List.nodup_cons]
      exact ⟨fun hm => h.1 (keysA_delA_subset k k₀ t hm), ih h.2⟩

theorem lookupA_eq_none_iff {β : Type} (k : String) (l : List (String × β)) :
    lookupA k l = none ↔ k ∉ keysA l := by
  induction l with
  | nil => simp [lookupA, keysA]
  | cons hd t ih =>
    obtain ⟨k₀, v₀⟩ := hd
    by_cases hk : k₀ = k
    · simp [lookupA, hk, keysA]
    · simp [lookupA, hk, keysA, Ne.symm hk] at ih ⊢
      exact ih

theorem lookupA_mem {β : Type} (k : String) (v : β) (l : List (String × β))
    (h : lookupA k l = some v) : (k, v) ∈ l := by
  induction l with
  | nil => simp [lookupA] at h
  | cons hd t ih =>
    obtain ⟨k₀, v₀⟩ := hd
    by_cases hk : k₀ = k
    · subst hk
      simp [lookupA] at h
      simp [h]
    · simp only [lookupA, hk, if_false] at h
      exact List.mem_cons_of_mem _ (ih h)

theorem mem_lookupA {β : Type} (k : String) (v : β) (l : List (String × β))
    (hnd : NodupKeys l) (h : (k, v) ∈ l) : lookupA k l = some v := by
  induction l with
  | nil => simp at h
  | cons hd t ih =>
    obtain ⟨k₀, v₀⟩ := hd
    unfold NodupKeys keysA at hnd
    simp only [List.map_cons, List.nodup_cons] at hnd
    rcases List.mem_cons.mp h with h | h
    · obtain ⟨h1, h2⟩ := Prod.mk.injEq .. ▸ h
      simp [lookupA, h1.symm, h2]
    · have hk : k₀ ≠ k := by
        intro e
        subst e
        exact hnd.1 (List.mem_map.mpr ⟨(k₀, v), h, rfl⟩)
      simp only [lookupA, hk, if_false]
      exact ih hnd.2 h

/-- Lookup is preserved by any permutation of an association list whose
keys are duplicate-free (JavaScript `deepEqual` is key-order blind). -/
theorem lookupA_of_perm {β : Type} (k : String) (l l' : List (String × β))
    (hp : l.Perm l') (hnd : NodupKeys l) : lookupA k l' = lookupA k l := by
  have hnd' : NodupKeys l' := by
    unfold NodupKeys keysA at hnd ⊢
    exact (hp.map Prod.fst).nodup_iff.mp hnd
  cases hcur : lookupA k l with
  | some v =>
    exact mem_lookupA k v l' hnd' (hp.mem_iff.mp (lookupA_mem k v l hcur))
  | none =>
    rw [lookupA_eq_none_iff] at hcur ⊢
    intro hm
    exact hcur (by
      unfold keysA at hm ⊢
      exact ((hp.map Prod.fst).mem_iff).mpr hm)

theorem nodup_addToSet {α : Type} [DecidableEq α] (l : List α) (x : α)
    (h : l.Nodup) : (addToSet l x).Nodup := by
  unfold addToSet
  by_cases hm : x ∈ l
  · rwa [if_pos hm]
  · rw [if_neg hm, List.nodup_append]
    refine ⟨h, List.nodup_singleton _, ?_⟩
    intro a ha hb
    rw [List.mem_singleton] at hb
    subst hb
    exact hm ha

theorem mem_addToSet {α : Type} [DecidableEq α] (l : List α) (x y : α) :
    y ∈ addToSet l x ↔ y ∈ l ∨ y = x := by
  unfold addToSet
  by_cases hm : x ∈ l
  · simp only [hm, if_true]
    constructor
    · exact Or.inl
    · rintro (h | rfl)
      · exact h
      · exact hm
  · simp [hm]

theorem not_mem_addToSet {α : Type} [DecidableEq α] (l : List α) (x y : α)
    (h : y ∉ l) (hne : y ≠ x) : y ∉ addToSet l x := by
  rw [mem_addToSet]
  rintro (hm | rfl)
  · exact h hm
  · exact hne rfl

/-! ### Path model

The source composes node's `path` functions on root-relative paths:
`relative(State.root, resolve(dir, rel))`, `dirname(p)` and
`relative(from, to)`.  We embed paths as `/`-separated root-relative
strings and those compositions as segment-normalising functions.  A
leading sequence of `..` segments in a normalised path denotes a target
above the project root. -/

/-- Split a character list at `/` characters (the separator is dropped,
empty chunks are kept, exactly like `String.split`). -/
def splitSlash : List Char → List (List Char)
  | [] => [[]]
  | c :: rest =>
    let r := splitSlash rest
    if c = '/' then [] :: r
    else
      match r with
      | h :: t => (c :: h) :: t
      | [] => [[c]]

/-- Split a path into its segments. -/
def splitPath (s : String) : List String :=
  (splitSlash s.data).map String.mk

/-- Join segments back into a path. -/
def joinSegs (segs : List String) : String :=
  String.mk (List.intercalate ['/'] (segs.map String.data))

/-- Embedding of JavaScript `String.prototype.startsWith`. -/
def startsWithStr (s pre : String) : Bool :=
  List.isPrefixOf pre.data s.data

/-- Normalise a segment list the way `path.resolve` does: drop empty and
`.` segments, make `..` pop the previous segment, and keep leading `..`
segments (the path then points above the project root). -/
def normSegsAux : List String → List String → List String
  | stack, [] => stack.reverse
  | stack, seg :: rest =>
    if seg = "" ∨ seg = "." then normSegsAux stack rest
    else if seg = ".." then
      match stack with
      | [] => normSegsAux [".."] rest
      | top :: stack' =>
        if top = ".." then normSegsAux (".." :: top :: stack') rest
        else normSegsAux stack' rest
    else normSegsAux (seg :: stack) rest

def normSegs (segs : List String) : List String :=
  normSegsAux [] segs

/-- Embedding of `relative(State.root, resolve(dir, rel))` for a
root-relative directory `dir`: resolve `rel` against `dir` and normalise
back to a root-relative path. -/
def joinRel (dir rel : String) : String :=
  joinSegs (normSegs (splitPath dir ++ splitPath rel))

/-- Embedding of node `dirname` on a relative path. -/
def dirname (p : String) : String :=
  joinSegs (splitPath p).dropLast

/-- Embedding of `relative(fromPath, toPath)` for two root-relative
paths: strip the common segment chunk, then climb with `..` segments. -/
def relativeSegs : List String → List String → List String
  | f :: ft, t :: tt =>
    if f = t then relativeSegs ft tt
    else (f :: ft).map (fun _ => "..") ++ t :: tt
  | [], t => t
  | f, [] => f.map (fun _ => "..")

def relativePath (fromPath toPath : String) : String :=
  joinSegs (relativeSegs (normSegs (splitPath fromPath)) (normSegs (splitPath toPath)))

/-- Sanity checks of the path model against node `path` behaviour. -/
theorem pathModel_checks :
    joinRel "pkgs/a/.ts" "a.ts" = "pkgs/a/.ts/a.ts" ∧
    joinRel "pkgs/a/.ts" "../dep/b.ts" = "pkgs/a/dep/b.ts" ∧
    joinRel "a/.ts" ".." = "a" ∧
    joinRel "a/.ts" "../../b.ts" = "b.ts" ∧
    joinRel "a/.ts" "../../../b.ts" = "../b.ts" ∧
    dirname "pkgs/a/package.json" = "pkgs/a" ∧
    relativePath "pkgs/a" "pkgs/b" = "../b" ∧
    relativePath "pkgs/a" "x" = "../../x" := by
  refine ⟨by decide, by decide, by decide, by decide, by decide, by decide, by decide,
    by decide⟩

/-! ### Utils (src/utils.ts)

`withRetry` loops `fn` with `attempt` starting at 0; a failure with
`attempt >= maxRetries` is rethrown, otherwise the loop waits
`baseDelay * 1.6 ^ attempt` and increments `attempt`.  The embedding
takes the sequence of outcomes of `fn` (one per attempt) and returns the
final outcome together with the list of waits performed, in order. -/

def withRetryAux {ε α : Type} (f : Nat → Except ε α) (baseDelay : ℚ) :
    Nat → Nat → Except ε α × List ℚ
  | attempt, 0 => (f attempt, [])
  | attempt, rem + 1 =>
    match f attempt with
    | .ok a => (.ok a, [])
    | .error _ =>
      let t := withRetryAux f baseDelay (attempt + 1) rem
      (t.1, baseDelay * (8 / 5 : ℚ) ^ attempt :: t.2)

/-- Embedding of `Utils.withRetry(fn, maxRetries, baseDelay)`: the first
component is the returned/raised outcome, the second the delays waited
(`1.6` is the rational `8/5`; the float arithmetic of the source is
embedded as exact rational arithmetic). -/
def withRetry {ε α : Type} (f : Nat → Except ε α) (maxRetries : Nat) (baseDelay : ℚ) :
    Except ε α × List ℚ :=
  withRetryAux f baseDelay 0 maxRetries

/-- Embedding of `Utils.areEqual`: equal lengths and every item of `a`
occurs somewhere in `b` (`Array.prototype.includes`). -/
def areEqual {α : Type} [DecidableEq α] (a b : List α) : Bool :=
  a.length == b.length && a.all (fun item => b.contains item)

/-- Embedding of `Utils.getMissingItems`. -/
def getMissingItems {α : Type} [DecidableEq α] (actual next : List α) : List α :=
  next.filter (fun item => !(actual.contains item))

/-- Embedding of `Utils.getRedundantItems`. -/
def getRedundantItems {α : Type} [DecidableEq α] (actual next : List α) : List α :=
  actual.filter (fun item => !(next.contains item))

/-- Lexicographic comparison of character lists by code point, the
order `Array.prototype.sort()` applies to the string keys. -/
def charListLe : List Char → List Char → Bool
  | [], _ => true
  | _ :: _, [] => false
  | a :: as, b :: bs =>
    if a.toNat < b.toNat then true
    else if b.toNat < a.toNat then false
    else charListLe as bs

/-- String order of the JavaScript default sort. -/
def strLeB (a b : String) : Bool :=
  charListLe a.data b.data

theorem charListLe_total : ∀ as bs, charListLe as bs = true ∨ charListLe bs as = true
  | [], _ => Or.inl rfl
  | _ :: _, [] => Or.inr rfl
  | a :: as, b :: bs => by
    by_cases hab : a.toNat < b.toNat
    · exact Or.inl (by simp [charListLe, hab])
    · by_cases hba : b.toNat < a.toNat
      · exact Or.inr (by simp [charListLe, hba])
      · rcases charListLe_total as bs with h | h
        · exact Or.inl (by simp [charListLe, hab, hba, h])
        · exact Or.inr (by simp [charListLe, hab, hba, h])

theorem charListLe_trans : ∀ as bs cs, charListLe as bs = true →
    charListLe bs cs = true → charListLe as cs = true
  | [], _, _ => fun _ _ => rfl
  | _ :: _, [], _ => fun h _ => by simp [charListLe] at h
  | _ :: _, _ :: _, [] => fun _ h => by simp [charListLe] at h
  | a :: as, b :: bs, c :: cs => fun h1 h2 => by
    simp only [charListLe] at h1 h2 ⊢
    by_cases hab : a.toNat < b.toNat
    · by_cases hbc : b.toNat < c.toNat
      · rw [if_pos (show a.toNat < c.toNat by omega)]
      · by_cases hcb : c.toNat < b.toNat
        · rw [if_neg hbc, if_pos hcb] at h2
          simp at h2
        · rw [if_pos (show a.toNat < c.toNat by omega)]
    · by_cases hba : b.toNat < a.toNat
      · rw [if_neg hab, if_pos hba] at h1
        simp at h1
      · by_cases hbc : b.toNat < c.toNat
        · rw [if_pos (show a.toNat < c.toNat by omega)]
        · by_cases hcb : c.toNat < b.toNat
          · rw [if_neg hbc, if_pos hcb] at h2
            simp at h2
          · rw [if_neg hab, if_neg hba] at h1
            rw [if_neg hbc, if_neg hcb] at h2
            rw [if_neg (show ¬ a.toNat < c.toNat by omega),
              if_neg (show ¬ c.toNat < a.toNat by omega)]
            exact charListLe_trans as bs cs h1 h2

/-- Key order used by `Utils.sortObject` (`Object.keys(obj).sort()`). -/
def keyLE {β : Type} (a b : String × β) : Prop :=
  strLeB a.1 b.1 = true

instance {β : Type} : DecidableRel (keyLE (β := β)) := by
  unfold keyLE
  exact fun a b => inferInstance

instance {β : Type} : IsTotal (String × β) keyLE :=
  ⟨fun a b => charListLe_total a.1.data b.1.data⟩

instance {β : Type} : IsTrans (String × β) keyLE :=
  ⟨fun _ _ _ hab hbc => charListLe_trans _ _ _ hab hbc⟩

/-- Embedding of `Utils.sortObject`: rebuild the object with its keys in
sorted order (keys of a JavaScript object are unique, so a stable sort of
the entries by key is the same object). -/
def sortObject {β : Type} (l : List (String × β)) : List (String × β) :=
  List.insertionSort keyLE l

/-- An association list in canonically sorted key order. -/
def SortedByKey {β : Type} (l : List (String × β)) : Prop :=
  List.Sorted keyLE l

theorem sortedByKey_sortObject {β : Type} (l : List (String × β)) :
    SortedByKey (sortObject l) :=
  List.sorted_insertionSort keyLE l

theorem perm_sortObject {β : Type} (l : List (String × β)) :
    (sortObject l).Perm l :=
  List.perm_insertionSort keyLE l

theorem lookupA_sortObject {β : Type} (k : String) (l : List (String × β))
    (h : NodupKeys l) : lookupA k (sortObject l) = lookupA k l :=
  lookupA_of_perm k l (sortObject l) (perm_sortObject l).symm h

theorem nodupKeys_sortObject {β : Type} (l : List (String × β))
    (h : NodupKeys l) : NodupKeys (sortObject l) := by
  unfold NodupKeys keysA at h ⊢
  exact ((perm_sortObject l).map Prod.fst).nodup_iff.mpr h

/-! ### State and registry (src/state.ts, src/workspaces.ts)

`State` holds the watched-workspace registry: the `path → name` map, the
`name → dependencies` map, the per-path readiness bitmask and the
package watchlist. -/

structure RegState where
  workspaceNames : List (String × String)
  workspaceDependencies : List (String × List String)
  workspaceRequirements : List (String × Nat)
  workspacePackagesWatchlist : List String
deriving DecidableEq

/-- The empty registry (`State.clear`). -/
def emptyState : RegState :=
  ⟨[], [], [], []⟩

/-- Requirement bits (`Workspaces.Requirement`). -/
def RequirementTSConfig : Nat := 1

def RequirementPackage : Nat := 2

def RequirementPackageName : Nat := 4

/-- Embedding of `Workspaces.allRequirements`
(`Package | PackageName | TSConfig`). -/
def allRequirements : Nat :=
  RequirementPackage ||| RequirementPackageName ||| RequirementTSConfig

/-- Embedding of `Workspaces.getWorkspaceName`; `none` is the fatal
`process.exit(1)` on a missing registry entry. -/
def getWorkspaceName (reg : RegState) (workspacePath : String) : Option String :=
  lookupA workspacePath reg.workspaceNames

/-- Embedding of `Workspaces.getWorkspacePath`: the first registered
path whose name matches; `none` is the fatal exit. -/
def getWorkspacePath (reg : RegState) (workspaceName : String) : Option String :=
  (reg.workspaceNames.find? (fun kv => kv.2 = workspaceName)).map (fun kv => kv.1)

/-- Embedding of `Workspaces.getWorkspaceDependencies`. -/
def getWorkspaceDependencies (reg : RegState) (workspaceName : String) :
    Option (List String) :=
  lookupA workspaceName reg.workspaceDependencies

/-- Embedding of `Workspaces.isFileBelongsToWorkspace`
(`filePath.startsWith(workspacePath)`). -/
def isFileBelongsToWorkspace (filePath workspacePath : String) : Bool :=
  startsWithStr filePath workspacePath

/-- Embedding of `Package.packagePathToWorkspacePath` (`dirname`). -/
def packagePathToWorkspacePath (packagePath : String) : String :=
  dirname packagePath

/-- Embedding of `Workspaces.getWatchedWorkspacePaths`:
`new Set(watchlist.map(packagePathToWorkspacePath))`. -/
def getWatchedWorkspacePaths (reg : RegState) : List String :=
  dedupFirst (reg.workspacePackagesWatchlist.map packagePathToWorkspacePath)

/-- Embedding of `Workspaces.addRequirement`. -/
def addRequirement (reg : RegState) (path : String) (requirement : Nat) : RegState :=
  { reg with
    workspaceRequirements :=
      setA path (((lookupA path reg.workspaceRequirements).getD 0) ||| requirement)
        reg.workspaceRequirements }

/-- Embedding of `Workspaces.hasRequirement`. -/
def hasRequirement (reg : RegState) (path : String) (requirement : Nat) : Bool :=
  ((lookupA path reg.workspaceRequirements).getD 0) &&& requirement = requirement

/-- Embedding of `Workspaces.hasAllRequirements`. -/
def hasAllRequirements (reg : RegState) (path : String) : Bool :=
  ((lookupA path reg.workspaceRequirements).getD 0) &&& allRequirements = allRequirements

/-- Embedding of `Workspaces.matchingWorkspaces`: copy the candidate set
and delete every path without all requirement bits. -/
def matchingWorkspaces (reg : RegState) (workspacePaths : List String) : List String :=
  workspacePaths.filter (fun p => hasAllRequirements reg p)

/-- Embedding of the name-assignment step of
`processWorkspacePackageWrite` (src/watch.ts lines 340–346):
`State.workspaceNames.set(workspacePath, workspaceName)` followed by
`Workspaces.addRequirement(workspacePath, Requirement.PackageName)`. -/
def assignWorkspaceName (reg : RegState) (workspacePath workspaceName : String) : RegState :=
  addRequirement
    { reg with workspaceNames := setA workspacePath workspaceName reg.workspaceNames }
    workspacePath RequirementPackageName

/-! #### Bitmask facts -/

theorem and_two_pow_eq (c k : Nat) :
    c &&& 2 ^ k = if c.testBit k then 2 ^ k else 0 := by
  apply Nat.eq_of_testBit_eq
  intro i
  by_cases hc : c.testBit k
  · rw [if_pos hc, Nat.testBit_and, Nat.testBit_two_pow]
    by_cases hik : k = i
    · subst hik
      simp [hc]
    · simp [hik]
  · rw [if_neg hc, Nat.testBit_and, Nat.testBit_two_pow, Nat.zero_testBit]
    by_cases hik : k = i
    · subst hik
      simp [hc]
    · simp [hik]

theorem and_mask_eq_self_iff_testBit (c k : Nat) :
    (c &&& 2 ^ k = 2 ^ k) ↔ c.testBit k = true := by
  constructor
  · intro h
    rw [and_two_pow_eq] at h
    by_cases hc : c.testBit k
    · exact hc
    · rw [if_neg hc] at h
      exact absurd h.symm (Nat.pow_pos (n := k) (by norm_num)).ne'
  · intro h
    rw [and_two_pow_eq, if_pos h]

theorem and_seven_eq_seven_iff (c : Nat) :
    (c &&& 7 = 7) ↔ (c.testBit 0 = true ∧ c.testBit 1 = true ∧ c.testBit 2 = true) := by
  have e0 : Nat.testBit 7 0 = true := by decide
  have e1 : Nat.testBit 7 1 = true := by decide
  have e2 : Nat.testBit 7 2 = true := by decide
  constructor
  · intro h
    have h0 := congrArg (fun x => Nat.testBit x 0) h
    have h1 := congrArg (fun x => Nat.testBit x 1) h
    have h2 := congrArg (fun x => Nat.testBit x 2) h
    simp only [Nat.testBit_and, e0, e1, e2, Bool.and_true] at h0 h1 h2
    exact ⟨h0, h1, h2⟩
  · rintro ⟨h0, h1, h2⟩
    apply Nat.eq_of_testBit_eq
    intro i
    rw [Nat.testBit_and]
    match i with
    | 0 => simp [h0, e0]
    | 1 => simp [h1, e1]
    | 2 => simp [h2, e2]
    | (n + 3) =>
      have h7 : Nat.testBit 7 (n + 3) = false :=
        Nat.testBit_lt_two_pow (by
          calc (7 : Nat) < 2 ^ 3 := by norm_num
          _ ≤ 2 ^ (n + 3) := Nat.pow_le_pow_right (by norm_num) (by omega))
      simp [h7]

/-! ### Package manifests (src/package.ts)

A `package.json` document.  `none` fields are absent keys (JSON.parse
never produces `undefined` values). -/

structure PackageDoc where
  name : Option String
  dependencies : Option (List (String × String))
  devDependencies : Option (List (String × String))
  workspaces : Option (List String)
deriving DecidableEq

/-- Result of a mutator callback: `boolean | void` or an array of those
(`Utils.MaybeArray<boolean | void>`); `none` is `undefined`. -/
inductive MutatorResult where
  | scalar (r : Option Bool)
  | arr (rs : List (Option Bool))
deriving DecidableEq

/-- Write-skip test of `mutatePackage` / `mutateTSConfig`: an array
result skips the write when every element is strictly `false`, a scalar
result when it is strictly `false` (so a `void` mutator always writes). -/
def skipWrite : MutatorResult → Bool
  | .scalar r => r = some false
  | .arr rs => rs.all (fun r => r = some false)

/-- Embedding of `Package.mutatePackage`: run the mutator on the parsed
document and write the mutated document back unless the result asks to
skip.  Returns the document left on disk and whether a write happened. -/
def mutatePackage (pkg : PackageDoc) (mutator : PackageDoc → PackageDoc × MutatorResult) :
    PackageDoc × Bool :=
  let m := mutator pkg
  if skipWrite m.2 then (pkg, false) else (m.1, true)

/-- Embedding of `Package.updateChangedDependencies`: ensure a
`dependencies` object, insert every missing name with the wildcard
version, delete every redundant name from `dependencies` and
`devDependencies`, and sort both maps.  The mutator returns `undefined`. -/
def updateChangedDependencies (pkg : PackageDoc) (missing redundant : List String) :
    PackageDoc × Bool :=
  mutatePackage pkg (fun p =>
    let deps0 := p.dependencies.getD []
    let deps1 := missing.foldl (fun deps name => setA name "*" deps) deps0
    let deps2 := redundant.foldl (fun deps name => delA name deps) deps1
    let dev1 := p.devDependencies.map
      (fun deps => redundant.foldl (fun deps name => delA name deps) deps)
    ({ p with
        dependencies := some (sortObject deps2),
        devDependencies := dev1.map sortObject },
      MutatorResult.scalar none))

/-- JavaScript truthiness of `obj?.[k]` for a string-valued object: the
key is present and its value is a non-empty string. -/
def truthyLookup (m : Option (List (String × String))) (k : String) : Bool :=
  match m with
  | none => false
  | some l =>
    match lookupA k l with
    | some v => !(v = "")
    | none => false

/-- Embedding of the mutator of
`Workspaces.renameWorkspaceInPackageDependencies`: rewrite
`dependencies` when it exists and `devDependencies` does not hold the
previous name, and rewrite `devDependencies` when it holds the previous
name; each rewrite deletes the previous key, sets the new key to `"*"`
and sorts the map. -/
def renameWorkspaceInPackageDependenciesMutator (pkg : PackageDoc)
    (prevName newName : String) : PackageDoc :=
  let pkg1 :=
    if pkg.dependencies.isSome && !(truthyLookup pkg.devDependencies prevName) then
      { pkg with
        dependencies :=
          some (sortObject (setA newName "*" (delA prevName (pkg.dependencies.getD [])))) }
    else pkg
  if pkg.devDependencies.isSome && truthyLookup pkg.devDependencies prevName then
    { pkg1 with
      devDependencies :=
        some (sortObject (setA newName "*" (delA prevName (pkg.devDependencies.getD [])))) }
  else pkg1

/-- Embedding of `Package.getWorkspacePackagePath`. -/
def getWorkspacePackagePath (workspacePath : String) : String :=
  joinRel workspacePath "package.json"

/-- Embedding of `Workspaces.renameWorkspaceInPackageDependencies` over
a filesystem of parsed package manifests keyed by package path: read the
dependent's manifest, apply the rename mutator and write it back (the
mutator returns `undefined`, so `mutatePackage` always writes); a missing
manifest rejects (the read failure propagates). -/
def renameWorkspaceInPackageDependencies (fs : List (String × PackageDoc))
    (workspacePath prevName newName : String) : Option (List (String × PackageDoc)) :=
  match lookupA (getWorkspacePackagePath workspacePath) fs with
  | none => none
  | some pkg =>
    let m := mutatePackage pkg (fun p =>
      (renameWorkspaceInPackageDependenciesMutator p prevName newName,
        MutatorResult.scalar none))
    some (if m.2 then setA (getWorkspacePackagePath workspacePath) m.1 fs else fs)

/-- Body of the `workspaceDependencies` iteration of
`renameWorkspaceReferences`: ignore the renamed package and workspaces
that do not depend on the previous name, otherwise resolve the
dependent's path (fatal exit when unregistered) and rewrite its
manifest. -/
def renameStep (reg : RegState) (prevName newName : String)
    (fsAcc : List (String × PackageDoc)) (entry : String × List String) :
    Option (List (String × PackageDoc)) :=
  if entry.1 = newName ∨ ¬ (entry.2.contains prevName) then some fsAcc
  else
    match getWorkspacePath reg entry.1 with
    | none => none
    | some workspacePath =>
      renameWorkspaceInPackageDependencies fsAcc workspacePath prevName newName

/-- Embedding of `Workspaces.renameWorkspaceReferences` restricted to the
package-manifest documents.  The parallel
`TSConfig.refreshTSConfigReferencesWorkspaceRename` call touches only
`tsconfig.json` documents, which are not part of this package
filesystem, so it is not modelled here. -/
def renameWorkspaceReferences (reg : RegState) (fs : List (String × PackageDoc))
    (prevName newName : String) : Option (List (String × PackageDoc)) :=
  reg.workspaceDependencies.foldlM (renameStep reg prevName newName) fs

/-! ### Build-info decoder (src/buildinfo.ts)

The incremental-build artifact: `fileNames` is a map from file index to
file name (entries in ascending index order, as `Object.entries`
iterates integer keys), `referencedMap` a list of `[fileId, listId]`
pairs and `fileIdsList` a map from list index to file ids.  Ids and
indices are embedded as `Int` because JavaScript `id - 1` can go
negative (a negative index then looks up nothing). -/

structure BuildInfoProgram where
  fileNames : List (Int × String)
  referencedMap : Option (List (Int × Int))
  fileIdsList : Option (List (Int × List Int))
deriving DecidableEq

/-- Association lookup with integer keys (JavaScript indexed access). -/
def lookupI {β : Type} (k : Int) : List (Int × β) → Option β
  | [] => none
  | (k', v) :: t => if k' = k then some v else lookupI k t

/-- Characters of the first line of a string (a JavaScript `.` in a
regular expression does not match a newline). -/
def firstLineChars (s : String) : List Char :=
  s.data.takeWhile (fun c => !(c = '\n'))

/-- Containment of a character pattern in a character list. -/
def containsChars (pat : List Char) : List Char → Bool
  | [] => List.isPrefixOf pat []
  | c :: t => List.isPrefixOf pat (c :: t) || containsChars pat t

/-- Embedding of `localBuildInfoFileRE`
(`/^(?!.*(?:\.\.\/\.\.\/|\.\.\/node_modules))/`): the anchored negative
lookahead fails exactly when the first line of the file name contains
`../../` or `../node_modules`. -/
def localBuildInfoFileTest (fileName : String) : Bool :=
  let line := firstLineChars fileName
  !(containsChars "../../".data line) && !(containsChars "../node_modules".data line)

/-- Embedding of `getLocalBuildInfoFileIndices`. -/
def getLocalBuildInfoFileIndices (bi : BuildInfoProgram) : List Int :=
  (bi.fileNames.filter (fun kv => localBuildInfoFileTest kv.2)).map (fun kv => kv.1)

def buildInfoFileIndexToId (index : Int) : Int := index + 1

def buildInfoListIdToIndex (id : Int) : Int := id - 1

def buildInfoFileIdToIndex (id : Int) : Int := id - 1

/-- Embedding of `getBuildInfoListIds`: the list ids of all
`referencedMap` pairs whose file id is `index + 1`. -/
def getBuildInfoListIds (fileIndex : Int) (bi : BuildInfoProgram) : List Int :=
  ((bi.referencedMap.getD []).filter
      (fun pr => pr.1 = buildInfoFileIndexToId fileIndex)).map (fun pr => pr.2)

/-- Embedding of `getBuildInfoListsFileIds`: union (as an
insertion-ordered set) of the `fileIdsList` entries at `listId - 1`. -/
def getBuildInfoListsFileIds (listIds : List Int) (bi : BuildInfoProgram) : List Int :=
  listIds.foldl
    (fun fileIds listId =>
      ((lookupI (buildInfoListIdToIndex listId) (bi.fileIdsList.getD [])).getD
          []).foldl addToSet fileIds)
    []

/-- Embedding of `getBuildInfoFileNames`: map each file id to the file
name at `id - 1` and drop missing entries (and the empty string, which is
falsy in the source's `.filter((f) => !!f)`). -/
def getBuildInfoFileNames (fileIds : List Int) (bi : BuildInfoProgram) : List String :=
  fileIds.filterMap (fun fileId =>
    match lookupI (buildInfoFileIdToIndex fileId) bi.fileNames with
    | some f => if f = "" then none else some f
    | none => none)

/-- Embedding of `buildInfoFileToWorkspaceFile`:
`relative(root, resolve(dirname(buildInfoPath), fileName))`. -/
def buildInfoFileToWorkspaceFile (buildInfoPath fileName : String) : String :=
  joinRel (dirname buildInfoPath) fileName

/-- Embedding of `buildInfoPathToWorkspacePath`:
`relative(root, resolve(dirname(buildInfoPath), ".."))`. -/
def buildInfoPathToWorkspacePath (buildInfoPath : String) : String :=
  joinRel (dirname buildInfoPath) ".."

/-- Embedding of `getBuildInfoPath`. -/
def getBuildInfoPath (workspacePath : String) : String :=
  joinRel workspacePath ".ts/tsconfig.tsbuildinfo"

/-- The `allFileNames` set of `getBuildInfoDependencies`: all referenced
file names gathered over the local file indices. -/
def collectBuildInfoFiles (bi : BuildInfoProgram) : List String :=
  (getLocalBuildInfoFileIndices bi).foldl
    (fun acc index =>
      (getBuildInfoFileNames
          (getBuildInfoListsFileIds (getBuildInfoListIds index bi) bi) bi).foldl
        addToSet acc)
    []

/-- Body of the `allFileNames.forEach` loop of
`getBuildInfoDependencies`: map the referenced file to a root-relative
file, find the first watched workspace it belongs to (a file belonging
to none is silently dropped), resolve that workspace's name (fatal exit
when unregistered) and add it to the dependency set unless it is the
owner's own name. -/
def buildInfoDepStep (reg : RegState) (buildInfoPath workspaceName : String)
    (deps : List String) (buildInfoFile : String) : Option (List String) :=
  match (getWatchedWorkspacePaths reg).find?
      (fun workspace => isFileBelongsToWorkspace
        (buildInfoFileToWorkspaceFile buildInfoPath buildInfoFile) workspace) with
  | none => some deps
  | some workspacePath =>
    match getWorkspaceName reg workspacePath with
    | none => none
    | some name => some (if name ≠ workspaceName then addToSet deps name else deps)

/-- Embedding of `BuildInfo.getBuildInfoDependencies` on an
already-parsed artifact: resolve the owning workspace name, gather the
referenced file names, and run the per-file step over them collecting a
set of dependency names.  `none` is the fatal exit of a failed registry
lookup. -/
def getBuildInfoDependencies (reg : RegState) (buildInfoPath : String)
    (bi : BuildInfoProgram) : Option (List String) :=
  match getWorkspaceName reg (buildInfoPathToWorkspacePath buildInfoPath) with
  | none => none
  | some workspaceName =>
    (collectBuildInfoFiles bi).foldlM
      (buildInfoDepStep reg buildInfoPath workspaceName) []

/-- Embedding of the full `getBuildInfoDependencies` entry point
including its read (`Utils.withRetry(() => readBuildInfo(path), 50, 10)`):
the parse outcome sequence is retried up to 50 times with base delay
10ms before the failure propagates. -/
def getBuildInfoDependenciesFromReads {ε : Type} (reg : RegState) (buildInfoPath : String)
    (reads : Nat → Except ε BuildInfoProgram) : Except ε (Option (List String)) × List ℚ :=
  let r := withRetry reads 50 10
  (r.1.map (getBuildInfoDependencies reg buildInfoPath), r.2)

/-! ### TSConfig documents (src/tsconfig.ts)

A `tsconfig.json` document.  A reference `{path: p}` has the single key
`path`, so the `references` array is embedded as the list of its path
strings; `include` and `exclude` are embedded as `includeOpt` /
`excludeOpt` (`include` is a Lean keyword). -/

structure CompilerOptions where
  composite : Option Bool
  paths : Option (List (String × List String))
  outDir : Option String
  tsBuildInfoFile : Option String
  noEmit : Option Bool
  skipLibCheck : Option Bool
  jsx : Option String
deriving DecidableEq

structure TSConfigDoc where
  compilerOptions : Option CompilerOptions
  files : Option (List String)
  includeOpt : Option (List String)
  excludeOpt : Option (List String)
  references : Option (List String)
deriving DecidableEq

def emptyCompilerOptions : CompilerOptions :=
  ⟨none, none, none, none, none, none, none⟩

/-- Embedding of `isCompilerOptionsSatisfactory(options,
defaultTSConfigCompilerOptions)`: the source loops over the keys of the
default object (`composite: true`, `outDir: ".ts"`, `tsBuildInfoFile:
".ts/tsconfig.tsbuildinfo"`, `noEmit: false`), requiring each defined
default to be matched exactly (an absent option is `undefined` and
differs). -/
def isCompilerOptionsSatisfactory (options : Option CompilerOptions) : Bool :=
  match options with
  | none => false
  | some o =>
    o.composite = some true && o.outDir = some ".ts" &&
      o.tsBuildInfoFile = some ".ts/tsconfig.tsbuildinfo" && o.noEmit = some false

/-- Embedding of `mutateConfigureWorkspaceTSConfig`: return `false`
(second component) when the compiler options already satisfy the
defaults, otherwise `Object.assign` the defaults onto them. -/
def mutateConfigureWorkspaceTSConfig (tsConfig : TSConfigDoc) : TSConfigDoc × Bool :=
  if isCompilerOptionsSatisfactory tsConfig.compilerOptions then (tsConfig, false)
  else
    let co := tsConfig.compilerOptions.getD emptyCompilerOptions
    ({ tsConfig with
        compilerOptions := some
          { co with
            composite := some true
            outDir := some ".ts"
            tsBuildInfoFile := some ".ts/tsconfig.tsbuildinfo"
            noEmit := some false } },
      true)

def aliasFromWorkspaceName (workspaceName : String) : String := workspaceName

def referencePathToAliasResolve (referencePath : String) : String :=
  referencePath ++ "/"

/-- Embedding of `referencePathToAliashResolveGlob` (source name). -/
def referencePathToAliashResolveGlob (referencePath : String) : String :=
  referencePath ++ "/*"

def pathAliasToGlob (pathAlias : String) : String :=
  pathAlias ++ "/*"

/-- Embedding of `findRedundantAliases`: the first alias whose resolve
list contains `referencePath + "/"`. -/
def findRedundantAliases (aliases : List (String × List String))
    (referencePath : String) : Option String :=
  (aliases.find? (fun kv => kv.2.contains (referencePathToAliasResolve referencePath))).map
    (fun kv => kv.1)

/-- Embedding of `getReferencePath(dependencyPath, workspacePath)`
(`relative(workspacePath, dependencyPath)`). -/
def getReferencePath (dependencyPath workspacePath : String) : String :=
  relativePath workspacePath dependencyPath

/-- Embedding of `referencesFromWorkspaceNames`: each dependency name is
resolved through the registry (fatal exit on a missing name) and turned
into a reference path relative to the workspace. -/
def referencesFromWorkspaceNames (reg : RegState) (workspacePath : String)
    (dependencies : List String) : Option (List String) :=
  dependencies.mapM (fun dependencyName =>
    (getWorkspacePath reg dependencyName).map (fun p => getReferencePath p workspacePath))

/-- Embedding of `Workspaces.workspacePathFromReferencePath`. -/
def workspacePathFromReferencePath (referencePath workspacePath : String) : String :=
  joinRel workspacePath referencePath

/-- Embedding of `getRedundantReferences` (filter by reference path). -/
def getRedundantReferences (actual next : List String) : List String :=
  actual.filter (fun item => !(next.contains item))

/-- Embedding of `getMissingReferences` (filter by reference path). -/
def getMissingReferences (actual next : List String) : List String :=
  next.filter (fun item => !(actual.contains item))

/-- One step of the `mutateRemoveRedundantAliases` loop: find the alias
resolving to the redundant reference and delete it and its glob alias. -/
def removeAliasStep (ps : List (String × List String)) (referencePath : String) :
    List (String × List String) :=
  match findRedundantAliases ps referencePath with
  | some pathAlias => delA (pathAliasToGlob pathAlias) (delA pathAlias ps)
  | none => ps

/-- Embedding of `mutateRemoveRedundantAliases`: ensure a `paths` table,
then for each redundant reference delete its alias and glob alias. -/
def mutateRemoveRedundantAliases (tsConfig : TSConfigDoc)
    (redundantRefs : List String) : TSConfigDoc :=
  let co := tsConfig.compilerOptions.getD emptyCompilerOptions
  let ps := redundantRefs.foldl removeAliasStep (co.paths.getD [])
  { tsConfig with compilerOptions := some { co with paths := some ps } }

/-- One step of the `mutateAddMissingAliases` loop: resolve the
dependency's workspace name (fatal exit when unregistered) and set its
alias and glob alias. -/
def addAliasStep (reg : RegState) (workspacePath : String)
    (ps : List (String × List String)) (referencePath : String) :
    Option (List (String × List String)) :=
  match getWorkspaceName reg
      (workspacePathFromReferencePath referencePath workspacePath) with
  | none => none
  | some workspaceName =>
    some (setA (pathAliasToGlob (aliasFromWorkspaceName workspaceName))
      [referencePathToAliashResolveGlob referencePath]
      (setA (aliasFromWorkspaceName workspaceName)
        [referencePathToAliasResolve referencePath] ps))

/-- Embedding of `mutateAddMissingAliases`: ensure a `paths` table, then
run the alias-adding step over the missing references. -/
def mutateAddMissingAliases (reg : RegState) (tsConfig : TSConfigDoc)
    (missingRefs : List String) (workspacePath : String) : Option TSConfigDoc :=
  let co := tsConfig.compilerOptions.getD emptyCompilerOptions
  (missingRefs.foldlM (addAliasStep reg workspacePath) (co.paths.getD [])).map
    (fun ps => { tsConfig with compilerOptions := some { co with paths := some ps } })

/-- Deep equality of two alias tables, as `Utils.deepEqualJSON` compares
objects: equal key counts and every key of the first present in the
second with a deep-equal value (key order is irrelevant). -/
def pathsDeepEqual (a b : List (String × List String)) : Bool :=
  a.length == b.length &&
    a.all (fun kv =>
      match lookupA kv.1 b with
      | some v => v = kv.2
      | none => false)

def optionDeepEqualWith {α : Type} (eq : α → α → Bool) : Option α → Option α → Bool
  | none, none => true
  | some x, some y => eq x y
  | _, _ => false

/-- Embedding of `Utils.deepEqualJSON` at the compiler-options shape:
field-wise equality, with the `paths` table compared key-order-blind. -/
def compilerOptionsDeepEqual (a b : CompilerOptions) : Bool :=
  a.composite = b.composite && a.outDir = b.outDir &&
    a.tsBuildInfoFile = b.tsBuildInfoFile && a.noEmit = b.noEmit &&
    a.skipLibCheck = b.skipLibCheck && a.jsx = b.jsx &&
    optionDeepEqualWith pathsDeepEqual a.paths b.paths

/-- Embedding of `Utils.deepEqualJSON` at the tsconfig document shape. -/
def tsConfigDeepEqual (a b : TSConfigDoc) : Bool :=
  optionDeepEqualWith compilerOptionsDeepEqual a.compilerOptions b.compilerOptions &&
    a.files = b.files && a.includeOpt = b.includeOpt && a.excludeOpt = b.excludeOpt &&
    a.references = b.references

/-- Alias and reference mutation of `mutateUpdateReferences` after the
`references` array has been replaced: remove aliases of redundant
references (`redundantRefs.length && mutateRemoveRedundantAliases(...)`)
and add aliases of missing ones. -/
def updateRefsAliases (reg : RegState) (c1 : TSConfigDoc)
    (current references : List String) (workspacePath : String) : Option TSConfigDoc :=
  let redundantRefs := getRedundantReferences current references
  let missingRefs := getMissingReferences current references
  let c2 :=
    if redundantRefs.length ≠ 0 then mutateRemoveRedundantAliases c1 redundantRefs
    else c1
  if missingRefs.length ≠ 0 then mutateAddMissingAliases reg c2 missingRefs workspacePath
  else some c2

/-- Embedding of `mutateUpdateReferences`: clone the document, replace
`references` with the target list, remove aliases of redundant
references and add aliases of missing ones, then return `false` (skip
the write) exactly when the result is deep-equal to the clone. -/
def mutateUpdateReferences (reg : RegState) (tsConfig : TSConfigDoc)
    (references : List String) (workspacePath : String) : Option (TSConfigDoc × Bool) :=
  match getWorkspaceName reg workspacePath with
  | none => none
  | some _workspaceName =>
    match updateRefsAliases reg { tsConfig with references := some references }
        (tsConfig.references.getD []) references workspacePath with
    | none => none
    | some c3 => some (c3, !(tsConfigDeepEqual tsConfig c3))

/-- Embedding of `TSConfig.updateReferences`: read the workspace
tsconfig (given as `tsConfig`), run the configure mutator and the
reference mutator, and write back unless both returned `false`.  Returns
the document left on disk and whether a write happened; `none` is the
fatal exit of a failed registry lookup. -/
def updateReferences (reg : RegState) (workspacePath : String) (deps : List String)
    (tsConfig : TSConfigDoc) : Option (TSConfigDoc × Bool) :=
  match referencesFromWorkspaceNames reg workspacePath deps with
  | none => none
  | some references =>
    let m1 := mutateConfigureWorkspaceTSConfig tsConfig
    match mutateUpdateReferences reg m1.1 references workspacePath with
    | none => none
    | some m2 =>
      if m1.2 || m2.2 then some (m2.1, true) else some (tsConfig, false)

/-- Order on strings used by `Array.prototype.sort()`. -/
def strLe (a b : String) : Prop :=
  strLeB a b = true

instance : DecidableRel strLe := by
  unfold strLe
  exact fun a b => inferInstance

/-- Sort of a string array by `Array.prototype.sort()` (lexicographic
code-unit comparison). -/
def sortStrings (l : List String) : List String :=
  List.insertionSort strLe l

/-- Embedding of `TSConfig.areReferencesEqual`: map the references to
paths, sort both sides and compare with `Utils.areEqual`. -/
def areReferencesEqual (a b : List String) : Bool :=
  areEqual (sortStrings a) (sortStrings b)

/-- Embedding of `isRootTSConfigSatisfactory`: no `include`/`exclude`, an
empty `files` array, and references equal to the target set. -/
def isRootTSConfigSatisfactory (tsConfig : TSConfigDoc) (references : List String) : Bool :=
  tsConfig.includeOpt.isNone && tsConfig.excludeOpt.isNone &&
    tsConfig.files = some ([] : List String) &&
    areReferencesEqual (tsConfig.references.getD []) references

/-! ### Claim theorems -/

/-- C9: for every set of candidate workspace paths, `matchingWorkspaces`
returns exactly the subset of paths whose readiness bitmask has all
three requirement bits set — membership is equivalent to
`hasAllRequirements`, which is equivalent to the conjunction of the
three `hasRequirement` bits, so no workspace missing a bit is eligible. -/
theorem matchingWorkspaces_iff_allRequirements :
    (∀ (reg : RegState) (workspacePaths : List String) (p : String),
        p ∈ matchingWorkspaces reg workspacePaths ↔
          p ∈ workspacePaths ∧ hasAllRequirements reg p = true) ∧
    (∀ (reg : RegState) (p : String),
        hasAllRequirements reg p = true ↔
          (hasRequirement reg p RequirementTSConfig = true ∧
            hasRequirement reg p RequirementPackage = true ∧
            hasRequirement reg p RequirementPackageName = true)) := by
  constructor
  · intro reg ws p
    simp [matchingWorkspaces, List.mem_filter]
  · intro reg p
    unfold hasAllRequirements hasRequirement allRequirements
    unfold RequirementTSConfig RequirementPackage RequirementPackageName
    rw [show ((2 : Nat) ||| 4 ||| 1) = 7 by decide]
    set c := (lookupA p reg.workspaceRequirements).getD 0 with hc
    have b0 := and_mask_eq_self_iff_testBit c 0
    have b1 := and_mask_eq_self_iff_testBit c 1
    have b2 := and_mask_eq_self_iff_testBit c 2
    rw [show (2 : ℕ) ^ 0 = 1 from rfl] at b0
    rw [show (2 : ℕ) ^ 1 = 2 from rfl] at b1
    rw [show (2 : ℕ) ^ 2 = 4 from rfl] at b2
    simp only [decide_eq_true_eq]
    rw [and_seven_eq_seven_iff, ← b0, ← b1, ← b2]

/-- C10: the array-equality helper `areEqual` is not a permutation
check: it returns `true` whenever the lengths agree and every element of
`a` occurs in `b`; consequently `areReferencesEqual` equates the
reference lists `[x,x,y]` and `[x,y,y]`, which are not equal as
multisets, and the root-satisfiability decision accepts them as the same
list. -/
theorem areEqual_not_multiset_equality :
    (∀ (a b : List String), a.length = b.length → (∀ x ∈ a, x ∈ b) →
        areEqual a b = true) ∧
    areReferencesEqual ["x", "x", "y"] ["x", "y", "y"] = true ∧
    ¬ (["x", "x", "y"] : List String).Perm ["x", "y", "y"] ∧
    isRootTSConfigSatisfactory ⟨none, some [], none, none, some ["x", "x", "y"]⟩
      ["x", "y", "y"] = true := by
  refine ⟨?_, by decide, ?_, by decide⟩
  · intro a b hlen hmem
    unfold areEqual
    rw [Bool.and_eq_true]
    constructor
    · simpa using hlen
    · rw [List.all_eq_true]
      intro x hx
      exact List.elem_eq_true_of_mem (hmem x hx)
  · intro h
    have := h.count_eq "y"
    simp [List.count_cons] at this

/-- C10 witness: `areEqual` applied by the theorem at a concrete pair of
lists of equal length whose elements occur in each other. -/
theorem areEqual_not_multiset_equality_witness :
    areEqual ["q", "r"] ["r", "q"] = true :=
  areEqual_not_multiset_equality.1 ["q", "r"] ["r", "q"] rfl (by decide)

/-- C2: decoding the synthetic artifact `fileNames = {0: "a.ts",
1: "../dep/b.ts"}`, `referencedMap = [[1,1]]`, `fileIdsList = {0: [2]}`
for the workspace containing `a.ts` follows the index↔id off-by-one
mapping (index 0 → fileId 1 → listId 1 → listIndex 0 → fileId 2 →
index 1 → `../dep/b.ts`) and yields exactly the name of the workspace
owning `dep/b.ts`. -/
theorem decoder_off_by_one_scenario :
    getBuildInfoListIds 0 ⟨[(0, "a.ts"), (1, "../dep/b.ts")], some [(1, 1)], some [(0, [2])]⟩ = [1] ∧
    getBuildInfoListsFileIds [1]
      ⟨[(0, "a.ts"), (1, "../dep/b.ts")], some [(1, 1)], some [(0, [2])]⟩ = [2] ∧
    getBuildInfoFileNames [2]
      ⟨[(0, "a.ts"), (1, "../dep/b.ts")], some [(1, 1)], some [(0, [2])]⟩ = ["../dep/b.ts"] ∧
    getBuildInfoDependencies
      ⟨[("pkgs/a", "a"), ("pkgs/a/dep", "dep")], [], [],
        ["pkgs/a/dep/package.json", "pkgs/a/package.json"]⟩
      "pkgs/a/.ts/tsconfig.tsbuildinfo"
      ⟨[(0, "a.ts"), (1, "../dep/b.ts")], some [(1, 1)], some [(0, [2])]⟩ = some ["dep"] := by
  refine ⟨by decide, by decide, by decide, by decide⟩

/-- Semantic locality predicate following the spec's words ("does not
ascend above the project root or into a dependency cache", §4.2 step 3):
the file name, resolved against the artifact's directory to a
root-relative path, neither begins with a `..` segment (above the
project root) nor passes through a `node_modules` segment.  This is the
spec-side reading to compare with the source's syntactic regular
expression test. -/
def specLocalFileName (buildInfoPath fileName : String) : Bool :=
  let segs := normSegs (splitPath (dirname buildInfoPath) ++ splitPath fileName)
  !(segs.headD "" = "..") && !(segs.contains "node_modules")

/-- C7 counterexample: for the artifact at `a/.ts/tsconfig.tsbuildinfo`,
the referenced file `../../b.ts` resolves to the root-relative path
`b.ts`, which neither ascends above the project root nor enters
`node_modules` — yet its index is not selected, because the syntactic
test rejects any name containing the substring `../../`.  So selection
is not equivalent to "does not escape the project or enter
node_modules". -/
theorem localFileSelection_not_semantic :
    specLocalFileName "a/.ts/tsconfig.tsbuildinfo" "../../b.ts" = true ∧
    buildInfoFileToWorkspaceFile "a/.ts/tsconfig.tsbuildinfo" "../../b.ts" = "b.ts" ∧
    getLocalBuildInfoFileIndices ⟨[(0, "../../b.ts")], none, none⟩ = [] := by
  refine ⟨by decide, by decide, by decide⟩

/-- C7 (amended): a file index is selected as local if and only if its
file name contains neither `../../` nor `../node_modules` on its first
line — the regular expression is a purely syntactic substring test, a
conservative approximation of "does not escape the project or enter a
dependency cache". -/
theorem localFileSelection_syntactic :
    ∀ (bi : BuildInfoProgram) (idx : Int),
      idx ∈ getLocalBuildInfoFileIndices bi ↔
        ∃ name, (idx, name) ∈ bi.fileNames ∧
          containsChars ("../../".data) (firstLineChars name) = false ∧
          containsChars ("../node_modules".data) (firstLineChars name) = false := by
  intro bi idx
  unfold getLocalBuildInfoFileIndices localBuildInfoFileTest
  rw [List.mem_map]
  constructor
  · rintro ⟨⟨i, name⟩, hmem, hfst⟩
    rw [List.mem_filter] at hmem
    obtain ⟨hmem, htest⟩ := hmem
    simp only [Bool.and_eq_true, Bool.not_eq_true'] at htest
    subst hfst
    exact ⟨name, hmem, htest.1, htest.2⟩
  · rintro ⟨name, hmem, h1, h2⟩
    refine ⟨(idx, name), ?_, rfl⟩
    rw [List.mem_filter]
    refine ⟨hmem, ?_⟩
    simp only [Bool.and_eq_true, Bool.not_eq_true']
    exact ⟨h1, h2⟩

/-- C5 counterexample: the registry mutation applied on workspace
manifest writes (`State.workspaceNames.set` in
`processWorkspacePackageWrite`) does not enforce name uniqueness: after
two writes registering `w1` and `w2` under the same manifest name `dup`,
the state is reachable, `getWorkspaceName` of `w2` is `dup`, but
`getWorkspacePath` of `dup` is `w1` — the round trip
`getWorkspacePath (getWorkspaceName p) = p` fails, so the mapping is not
a bijection at every reachable state. -/
theorem registry_name_path_not_bijective :
    getWorkspaceName (assignWorkspaceName (assignWorkspaceName emptyState "w1" "dup") "w2" "dup")
        "w2" = some "dup" ∧
    getWorkspacePath (assignWorkspaceName (assignWorkspaceName emptyState "w1" "dup") "w2" "dup")
        "dup" = some "w1" ∧
    ("w1" : String) ≠ "w2" := by
  refine ⟨by decide, by decide, by decide⟩

/-- Uniqueness of the entry found for a name when no two registered
paths share a name. -/
theorem find_by_name_eq (names : List (String × String)) (p n : String)
    (hns : (names.map Prod.snd).Nodup) (hm : (p, n) ∈ names) :
    names.find? (fun kv => kv.2 = n) = some (p, n) := by
  induction names with
  | nil => simp at hm
  | cons hd t ih =>
    obtain ⟨p₀, n₀⟩ := hd
    simp only [List.map_cons, List.nodup_cons] at hns
    rcases List.mem_cons.mp hm with h | h
    · rw [Prod.mk.injEq] at h
      obtain ⟨h1, h2⟩ := h
      subst h1
      subst h2
      simp [List.find?_cons]
    · have hne : n₀ ≠ n := by
        intro e
        subst e
        exact hns.1 (List.mem_map.mpr ⟨(p, n₀), h, rfl⟩)
      rw [List.find?_cons]
      rw [show (decide ((p₀, n₀).2 = n)) = false by simp [hne]]
      exact ih hns.2 h

/-- C5 (amended): on a registry state in which no two registered paths
share a path key and no two share a name, `getWorkspaceName` and
`getWorkspacePath` are mutually inverse in both directions.  The source
does not enforce the name-uniqueness precondition (see the
counterexample): the bijection holds exactly on duplicate-free states. -/
theorem registry_bijection_of_unique_names :
    ∀ (reg : RegState),
      NodupKeys reg.workspaceNames →
      (reg.workspaceNames.map Prod.snd).Nodup →
      (∀ p n, getWorkspaceName reg p = some n → getWorkspacePath reg n = some p) ∧
      (∀ n p, getWorkspacePath reg n = some p → getWorkspaceName reg p = some n) := by
  intro reg hkeys hnames
  constructor
  · intro p n h
    have hm : (p, n) ∈ reg.workspaceNames := lookupA_mem p n _ h
    unfold getWorkspacePath
    rw [find_by_name_eq reg.workspaceNames p n hnames hm]
    rfl
  · intro n p h
    unfold getWorkspacePath at h
    rcases Option.map_eq_some'.mp h with ⟨kv, hfind, hfst⟩
    have hpred := List.find?_some hfind
    have hmem := List.mem_of_find?_eq_some hfind
    simp only [decide_eq_true_eq] at hpred
    obtain ⟨kp, kn⟩ := kv
    simp only at hpred hfst
    subst hpred
    subst hfst
    exact mem_lookupA _ _ _ hkeys hmem

/-- C5 witness: the amended bijection applied to a concrete
duplicate-free registry. -/
theorem registry_bijection_of_unique_names_witness :
    getWorkspacePath ⟨[("w1", "a"), ("w2", "b")], [], [], []⟩ "b" = some "w2" :=
  (registry_bijection_of_unique_names ⟨[("w1", "a"), ("w2", "b")], [], [], []⟩
      (by decide) (by decide)).1 "w2" "b" (by decide)

/-! #### Folded insert/delete lemmas (manifest dependency sync) -/

theorem lookupA_foldl_setA_not_mem (ks : List String) (v : String)
    (d : List (String × String)) (n : String) (h : n ∉ ks) :
    lookupA n (ks.foldl (fun d k => setA k v d) d) = lookupA n d := by
  induction ks generalizing d with
  | nil => rfl
  | cons k t ih =>
    simp only [List.mem_cons, not_or] at h
    rw [List.foldl_cons, ih _ h.2, lookupA_setA_ne _ _ _ _ (Ne.symm (Ne.symm h.1))]

theorem lookupA_foldl_setA_mem (ks : List String) (v : String)
    (d : List (String × String)) (n : String) (h : n ∈ ks) :
    lookupA n (ks.foldl (fun d k => setA k v d) d) = some v := by
  induction ks generalizing d with
  | nil => simp at h
  | cons k t ih =>
    rw [List.foldl_cons]
    by_cases hm : n ∈ t
    · exact ih _ hm
    · have hk : n = k := by
        rcases List.mem_cons.mp h with h | h
        · exact h
        · exact absurd h hm
      subst hk
      rw [lookupA_foldl_setA_not_mem t v _ n hm, lookupA_setA_self]

theorem lookupA_delA_none (k n : String) (d : List (String × String))
    (h : lookupA n d = none) : lookupA n (delA k d) = none := by
  by_cases hk : k = n
  · subst hk
    exact lookupA_delA_self k d
  · rw [lookupA_delA_ne k n d (Ne.symm hk)]
    exact h

theorem lookupA_foldl_delA_none (ks : List String) (d : List (String × String))
    (n : String) (h : lookupA n d = none) :
    lookupA n (ks.foldl (fun d k => delA k d) d) = none := by
  induction ks generalizing d with
  | nil => exact h
  | cons k t ih =>
    rw [List.foldl_cons]
    exact ih _ (lookupA_delA_none k n d h)

theorem lookupA_foldl_delA_mem (ks : List String) (d : List (String × String))
    (n : String) (h : n ∈ ks) :
    lookupA n (ks.foldl (fun d k => delA k d) d) = none := by
  induction ks generalizing d with
  | nil => simp at h
  | cons k t ih =>
    rw [List.foldl_cons]
    by_cases hm : n ∈ t
    · exact ih _ hm
    · have hk : n = k := by
        rcases List.mem_cons.mp h with h | h
        · exact h
        · exact absurd h hm
      subst hk
      exact lookupA_foldl_delA_none t _ n (lookupA_delA_self n d)

theorem lookupA_foldl_delA_not_mem (ks : List String) (d : List (String × String))
    (n : String) (h : n ∉ ks) :
    lookupA n (ks.foldl (fun d k => delA k d) d) = lookupA n d := by
  induction ks generalizing d with
  | nil => rfl
  | cons k t ih =>
    simp only [List.mem_cons, not_or] at h
    rw [List.foldl_cons, ih _ h.2, lookupA_delA_ne _ _ _ (Ne.symm (Ne.symm h.1))]

theorem nodupKeys_foldl_setA (ks : List String) (v : String)
    (d : List (String × String)) (h : NodupKeys d) :
    NodupKeys (ks.foldl (fun d k => setA k v d) d) := by
  induction ks generalizing d with
  | nil => exact h
  | cons k t ih =>
    rw [List.foldl_cons]
    exact ih _ (nodupKeys_setA k v d h)

theorem nodupKeys_foldl_delA (ks : List String) (d : List (String × String))
    (h : NodupKeys d) : NodupKeys (ks.foldl (fun d k => delA k d) d) := by
  induction ks generalizing d with
  | nil => exact h
  | cons k t ih =>
    rw [List.foldl_cons]
    exact ih _ (nodupKeys_delA k d h)

/-- C8 counterexample to the write-if-changed clause: on an
already-consistent manifest with empty missing/redundant sets, the
mutator of `updateChangedDependencies` returns `undefined`, so
`mutatePackage` writes although the resulting document equals the
original. -/
theorem updateChangedDependencies_writes_unchanged :
    updateChangedDependencies ⟨none, some [("a", "*")], none, none⟩ [] [] =
      (⟨none, some [("a", "*")], none, none⟩, true) := by decide

/-- C8 (amended): `updateChangedDependencies` inserts each missing name
as a wildcard `"*"` dependency entry, deletes each redundant name from
both `dependencies` and `devDependencies`, leaves every unrelated key
(the manifest's other fields and every dependency entry outside the two
sets) unchanged, and leaves both dependency maps canonically sorted by
key — but it always writes: the mutator returns `undefined`, so the
write is unconditional rather than write-if-changed. -/
theorem updateChangedDependencies_spec :
    ∀ (pkg : PackageDoc) (missing redundant : List String),
      NodupKeys (pkg.dependencies.getD []) →
      NodupKeys (pkg.devDependencies.getD []) →
      (updateChangedDependencies pkg missing redundant).2 = true ∧
      (updateChangedDependencies pkg missing redundant).1.name = pkg.name ∧
      (updateChangedDependencies pkg missing redundant).1.workspaces = pkg.workspaces ∧
      (∀ n ∈ missing, n ∉ redundant →
        lookupA n ((updateChangedDependencies pkg missing redundant).1.dependencies.getD []) =
          some "*") ∧
      (∀ n ∈ redundant,
        lookupA n ((updateChangedDependencies pkg missing redundant).1.dependencies.getD []) =
            none ∧
          ∀ dd, (updateChangedDependencies pkg missing redundant).1.devDependencies = some dd →
            lookupA n dd = none) ∧
      (∀ k, k ∉ missing → k ∉ redundant →
        lookupA k ((updateChangedDependencies pkg missing redundant).1.dependencies.getD []) =
          lookupA k (pkg.dependencies.getD [])) ∧
      (∀ k dd0 dd, k ∉ redundant → pkg.devDependencies = some dd0 →
        (updateChangedDependencies pkg missing redundant).1.devDependencies = some dd →
          lookupA k dd = lookupA k dd0) ∧
      SortedByKey ((updateChangedDependencies pkg missing redundant).1.dependencies.getD []) ∧
      (∀ dd, (updateChangedDependencies pkg missing redundant).1.devDependencies = some dd →
        SortedByKey dd) := by
  intro pkg missing redundant hdep hdev
  have hres :
      updateChangedDependencies pkg missing redundant =
        ({ pkg with
            dependencies :=
              some (sortObject (redundant.foldl (fun d k => delA k d)
                (missing.foldl (fun d k => setA k "*" d) (pkg.dependencies.getD [])))),
            devDependencies :=
              (pkg.devDependencies.map
                  (fun deps => redundant.foldl (fun d k => delA k d) deps)).map
                sortObject },
          true) := rfl
  rw [hres]
  set deps1 := missing.foldl (fun d k => setA k "*" d) (pkg.dependencies.getD []) with hdeps1
  set deps2 := redundant.foldl (fun d k => delA k d) deps1 with hdeps2
  have hnd1 : NodupKeys deps1 := nodupKeys_foldl_setA missing "*" _ hdep
  have hnd2 : NodupKeys deps2 := nodupKeys_foldl_delA redundant _ hnd1
  refine ⟨rfl, rfl, rfl, ?_, ?_, ?_, ?_, ?_, ?_⟩
  · intro n hnm hnr
    simp only [Option.getD_some]
    rw [lookupA_sortObject _ _ hnd2, hdeps2, lookupA_foldl_delA_not_mem _ _ _ hnr,
      lookupA_foldl_setA_mem _ _ _ _ hnm]
  · intro n hnr
    constructor
    · simp only [Option.getD_some]
      rw [lookupA_sortObject _ _ hnd2, hdeps2, lookupA_foldl_delA_mem _ _ _ hnr]
    · intro dd hdd
      rcases Option.map_eq_some'.mp hdd with ⟨dd1, hdd1, hsort⟩
      rcases Option.map_eq_some'.mp hdd1 with ⟨dd0, hpkg, hfold⟩
      have hdd0 : NodupKeys dd0 := by
        rw [hpkg] at hdev
        simpa using hdev
      subst hsort
      subst hfold
      rw [lookupA_sortObject _ _ (nodupKeys_foldl_delA redundant _ hdd0),
        lookupA_foldl_delA_mem _ _ _ hnr]
  · intro k hkm hkr
    simp only [Option.getD_some]
    rw [lookupA_sortObject _ _ hnd2, hdeps2, lookupA_foldl_delA_not_mem _ _ _ hkr,
      hdeps1, lookupA_foldl_setA_not_mem _ _ _ _ hkm]
  · intro k dd0 dd hkr hpkg hdd
    rcases Option.map_eq_some'.mp hdd with ⟨dd1, hdd1, hsort⟩
    rcases Option.map_eq_some'.mp hdd1 with ⟨dd0', hpkg', hfold⟩
    rw [hpkg] at hpkg'
    have hdd0 : NodupKeys dd0 := by
      rw [hpkg] at hdev
      simpa using hdev
    cases hpkg'
    subst hsort
    subst hfold
    rw [lookupA_sortObject _ _ (nodupKeys_foldl_delA redundant _ hdd0),
      lookupA_foldl_delA_not_mem _ _ _ hkr]
  · simp only [Option.getD_some]
    exact sortedByKey_sortObject _
  · intro dd hdd
    rcases Option.map_eq_some'.mp hdd with ⟨dd1, _, hsort⟩
    subst hsort
    exact sortedByKey_sortObject _

/-- C8 witness: the amended specification applied to a concrete
manifest with one missing and one redundant name. -/
theorem updateChangedDependencies_spec_witness :
    lookupA "a"
        ((updateChangedDependencies ⟨some "w", some [("b", "1")], none, none⟩ ["a"]
            ["b"]).1.dependencies.getD []) = some "*" :=
  ((updateChangedDependencies_spec ⟨some "w", some [("b", "1")], none, none⟩ ["a"] ["b"]
      (by decide) (by decide)).2.2.2.1) "a" (by decide) (by decide)

/-! #### Retry lemmas -/

theorem withRetryAux_error_iff {ε α : Type} (f : Nat → Except ε α) (b : ℚ) :
    ∀ (rem att : Nat),
      (∃ e, (withRetryAux f b att rem).1 = Except.error e) ↔
        ∀ k, att ≤ k → k ≤ att + rem → ∃ e, f k = Except.error e := by
  intro rem
  induction rem with
  | zero =>
    intro att
    constructor
    · rintro ⟨e, he⟩ k h1 h2
      have hk : k = att := by omega
      subst hk
      exact ⟨e, he⟩
    · intro h
      exact h att (le_refl att) (by omega)
  | succ r ih =>
    intro att
    constructor
    · intro h k h1 h2
      cases hfa : f att with
      | ok a =>
        obtain ⟨e, he⟩ := h
        rw [show withRetryAux f b att (r + 1) =
            (match f att with
              | .ok a => (Except.ok a, [])
              | .error _ =>
                let t := withRetryAux f b (att + 1) r
                (t.1, b * (8 / 5 : ℚ) ^ att :: t.2)) from rfl, hfa] at he
        simp at he
      | error e0 =>
        by_cases hk : k = att
        · subst hk
          exact ⟨e0, hfa⟩
        · obtain ⟨e, he⟩ := h
          rw [show withRetryAux f b att (r + 1) =
              (match f att with
                | .ok a => (Except.ok a, [])
                | .error _ =>
                  let t := withRetryAux f b (att + 1) r
                  (t.1, b * (8 / 5 : ℚ) ^ att :: t.2)) from rfl, hfa] at he
          exact (ih (att + 1)).mp ⟨e, he⟩ k (by omega) (by omega)
    · intro h
      cases hfa : f att with
      | ok a =>
        obtain ⟨e, he⟩ := h att (le_refl att) (by omega)
        rw [hfa] at he
        simp at he
      | error e0 =>
        obtain ⟨e, he⟩ := (ih (att + 1)).mpr (fun k h1 h2 => h k (by omega) (by omega))
        refine ⟨e, ?_⟩
        rw [show withRetryAux f b att (r + 1) =
            (match f att with
              | .ok a => (Except.ok a, [])
              | .error _ =>
                let t := withRetryAux f b (att + 1) r
                (t.1, b * (8 / 5 : ℚ) ^ att :: t.2)) from rfl, hfa]
        exact he

theorem withRetryAux_ok {ε α : Type} (f : Nat → Except ε α) (b : ℚ) :
    ∀ (rem att j : Nat) (a : α), att ≤ j → j ≤ att + rem →
      (∀ k, att ≤ k → k < j → ∃ e, f k = Except.error e) →
      f j = Except.ok a → (withRetryAux f b att rem).1 = Except.ok a := by
  intro rem
  induction rem with
  | zero =>
    intro att j a h1 h2 _ hj
    have hk : j = att := by omega
    subst hk
    rw [show (withRetryAux f b j 0).1 = (f j) from rfl, hj]
  | succ r ih =>
    intro att j a h1 h2 hfail hj
    by_cases hk : j = att
    · subst hk
      rw [show withRetryAux f b j (r + 1) =
          (match f j with
            | .ok a => (Except.ok a, [])
            | .error _ =>
              let t := withRetryAux f b (j + 1) r
              (t.1, b * (8 / 5 : ℚ) ^ j :: t.2)) from rfl, hj]
    · obtain ⟨e, he⟩ := hfail att (le_refl att) (by omega)
      rw [show withRetryAux f b att (r + 1) =
          (match f att with
            | .ok a => (Except.ok a, [])
            | .error _ =>
              let t := withRetryAux f b (att + 1) r
              (t.1, b * (8 / 5 : ℚ) ^ att :: t.2)) from rfl, he]
      exact ih (att + 1) j a (by omega) (by omega)
        (fun k hk1 hk2 => hfail k (by omega) hk2) hj

theorem withRetryAux_delays {ε α : Type} (f : Nat → Except ε α) (b : ℚ) :
    ∀ (rem att : Nat), ∃ n,
      (withRetryAux f b att rem).2 =
        (List.range n).map (fun k => b * (8 / 5 : ℚ) ^ (att + k)) := by
  intro rem
  induction rem with
  | zero => intro att; exact ⟨0, rfl⟩
  | succ r ih =>
    intro att
    rw [show withRetryAux f b att (r + 1) =
        (match f att with
          | .ok a => (Except.ok a, [])
          | .error _ =>
            let t := withRetryAux f b (att + 1) r
            (t.1, b * (8 / 5 : ℚ) ^ att :: t.2)) from rfl]
    cases hfa : f att with
    | ok a => exact ⟨0, rfl⟩
    | error e =>
      obtain ⟨n, hn⟩ := ih (att + 1)
      refine ⟨n + 1, ?_⟩
      simp only [hn]
      rw [List.range_succ_eq_map, List.map_cons, List.map_map]
      congr 1
      apply List.map_congr_left
      intro k _
      simp only [Function.comp_apply, Nat.succ_eq_add_one]
      have h : att + 1 + k = att + (k + 1) := by omega
      rw [h]

/-- C6: `withRetry(fn, maxAttempts, baseDelay)` propagates a failure
only after failures on every attempt `0..maxAttempts` (in particular at
least `maxAttempts` consecutive failures; the parameter counts retries,
so up to `maxAttempts + 1` calls of `fn` are made), a success at any
attempt not beyond the bound — all earlier attempts having failed — is
returned as the result, the waits are exactly
`baseDelay * 1.6 ^ k` before the `k`-th retry (`k` counted from 0, no
jitter), and the build-info reader instantiates the reader with bound 50
and base delay 10. -/
theorem withRetry_propagation_and_backoff (ε α : Type) :
    (∀ (f : Nat → Except ε α) (maxAttempts : Nat) (baseDelay : ℚ),
        (∃ e, (withRetry f maxAttempts baseDelay).1 = Except.error e) ↔
          ∀ k ≤ maxAttempts, ∃ e, f k = Except.error e) ∧
    (∀ (f : Nat → Except ε α) (maxAttempts j : Nat) (baseDelay : ℚ) (a : α),
        j ≤ maxAttempts → (∀ k < j, ∃ e, f k = Except.error e) →
        f j = Except.ok a → (withRetry f maxAttempts baseDelay).1 = Except.ok a) ∧
    (∀ (f : Nat → Except ε α) (maxAttempts : Nat) (baseDelay : ℚ), ∃ n,
        (withRetry f maxAttempts baseDelay).2 =
          (List.range n).map (fun k => baseDelay * (8 / 5 : ℚ) ^ k)) ∧
    (∀ (reg : RegState) (buildInfoPath : String)
        (reads : Nat → Except ε BuildInfoProgram),
        ((∀ k ≤ 50, ∃ e, reads k = Except.error e) →
            ∃ e, (getBuildInfoDependenciesFromReads reg buildInfoPath reads).1 =
              Except.error e) ∧
        ∃ n, (getBuildInfoDependenciesFromReads reg buildInfoPath reads).2 =
          (List.range n).map (fun k => 10 * (8 / 5 : ℚ) ^ k)) := by
  have hdelays : ∀ (f : Nat → Except ε α) (m : Nat) (b : ℚ), ∃ n,
      (withRetry f m b).2 = (List.range n).map (fun k => b * (8 / 5 : ℚ) ^ k) := by
    intro f m b
    obtain ⟨n, hn⟩ := withRetryAux_delays f b m 0
    refine ⟨n, ?_⟩
    rw [withRetry, hn]
    apply List.map_congr_left
    intro k _
    rw [Nat.zero_add]
  have hdelaysB : ∀ (g : Nat → Except ε BuildInfoProgram) (m : Nat) (b : ℚ), ∃ n,
      (withRetry g m b).2 = (List.range n).map (fun k => b * (8 / 5 : ℚ) ^ k) := by
    intro g m b
    obtain ⟨n, hn⟩ := withRetryAux_delays g b m 0
    refine ⟨n, ?_⟩
    rw [withRetry, hn]
    apply List.map_congr_left
    intro k _
    rw [Nat.zero_add]
  refine ⟨?_, ?_, hdelays, ?_⟩
  · intro f m b
    constructor
    · intro h k hk
      exact (withRetryAux_error_iff f b m 0).mp h k (Nat.zero_le k) (by omega)
    · intro h
      exact (withRetryAux_error_iff f b m 0).mpr (fun k _ h2 => h k (by omega))
  · intro f m j b a hj hfail hok
    exact withRetryAux_ok f b m 0 j a (Nat.zero_le j) (by omega)
      (fun k _ hk2 => hfail k hk2) hok
  · intro reg buildInfoPath reads
    constructor
    · intro h
      obtain ⟨e, he⟩ :=
        (withRetryAux_error_iff reads 10 50 0).mpr (fun k _ h2 => h k (by omega))
      refine ⟨e, ?_⟩
      show Except.map (getBuildInfoDependencies reg buildInfoPath)
          (withRetryAux reads 10 0 50).1 = Except.error e
      rw [he]
      rfl
    · exact hdelaysB reads 50 10

/-- C6 witness: the propagation bound and the early-success return of
`withRetry` at concrete outcome sequences. -/
theorem withRetry_propagation_and_backoff_witness :
    (∃ e, (withRetry (fun _ => (Except.error 0 : Except Nat Nat)) 2 10).1 =
        Except.error e) ∧
    (withRetry (fun k => if k = 1 then (Except.ok 7 : Except Nat Nat) else Except.error 0)
        2 10).1 = Except.ok 7 := by
  constructor
  · exact ((withRetry_propagation_and_backoff Nat Nat).1 _ 2 10).mpr
      (fun k _ => ⟨0, rfl⟩)
  · exact (withRetry_propagation_and_backoff Nat Nat).2.1 _ 2 1 10 7 (by omega)
      (fun k hk => ⟨0, by
        have hz : k = 0 := by omega
        subst hz
        rfl⟩)
      rfl

/-! #### Decoder fold invariant -/

theorem buildInfoDepStep_fold_spec (reg : RegState) (buildInfoPath workspaceName : String) :
    ∀ (files acc deps : List String),
      files.foldlM (buildInfoDepStep reg buildInfoPath workspaceName) acc = some deps →
      acc.Nodup → workspaceName ∉ acc →
      deps.Nodup ∧ workspaceName ∉ deps ∧
      ∀ n ∈ deps, n ∈ acc ∨
        ∃ f ∈ files, ∃ wp,
          (getWatchedWorkspacePaths reg).find?
              (fun w => isFileBelongsToWorkspace
                (buildInfoFileToWorkspaceFile buildInfoPath f) w) = some wp ∧
            getWorkspaceName reg wp = some n ∧ n ≠ workspaceName := by
  intro files
  induction files with
  | nil =>
    intro acc deps h hnd hws
    simp only [List.foldlM_nil, Option.pure_def, Option.some.injEq] at h
    subst h
    exact ⟨hnd, hws, fun n hn => Or.inl hn⟩
  | cons f t ih =>
    intro acc deps h hnd hws
    rw [List.foldlM_cons] at h
    cases hstep : buildInfoDepStep reg buildInfoPath workspaceName acc f with
    | none => rw [hstep] at h; simp at h
    | some acc' =>
      rw [hstep] at h
      simp only [Option.bind_eq_bind, Option.some_bind] at h
      unfold buildInfoDepStep at hstep
      split at hstep
      · rename_i hfind
        simp only [Option.some.injEq] at hstep
        subst hstep
        obtain ⟨h1, h2, h3⟩ := ih _ deps h hnd hws
        refine ⟨h1, h2, fun n hn => ?_⟩
        rcases h3 n hn with hl | ⟨g, hg, rest⟩
        · exact Or.inl hl
        · exact Or.inr ⟨g, List.mem_cons_of_mem f hg, rest⟩
      · rename_i wp hfind
        split at hstep
        · exact Option.noConfusion hstep
        · rename_i name hname
          simp only [Option.some.injEq] at hstep
          by_cases hne : name = workspaceName
          · rw [if_neg (by simp [hne])] at hstep
            subst hstep
            obtain ⟨h1, h2, h3⟩ := ih _ deps h hnd hws
            refine ⟨h1, h2, fun n hn => ?_⟩
            rcases h3 n hn with hl | ⟨g, hg, rest⟩
            · exact Or.inl hl
            · exact Or.inr ⟨g, List.mem_cons_of_mem f hg, rest⟩
          · rw [if_pos hne] at hstep
            subst hstep
            obtain ⟨h1, h2, h3⟩ :=
              ih _ deps h (nodup_addToSet acc name hnd)
                (not_mem_addToSet acc name workspaceName hws (fun e => hne e.symm))
            refine ⟨h1, h2, fun n hn => ?_⟩
            rcases h3 n hn with hl | ⟨g, hg, rest⟩
            · rcases (mem_addToSet acc name n).mp hl with hl' | rfl
              · exact Or.inl hl'
              · exact Or.inr ⟨f, List.mem_cons_self f t, wp, hfind, hname, hne⟩
            · exact Or.inr ⟨g, List.mem_cons_of_mem f hg, rest⟩

/-- C1: every successfully decoded artifact yields a duplicate-free set
of workspace names that (a) contains only names of currently-watched
workspaces to which some referenced file belongs, (b) never contains the
owning workspace's own name, and (c) therefore silently omits every
referenced file belonging to no currently-watched workspace. -/
theorem getBuildInfoDependencies_spec :
    ∀ (reg : RegState) (buildInfoPath : String) (bi : BuildInfoProgram)
      (deps : List String),
      getBuildInfoDependencies reg buildInfoPath bi = some deps →
      deps.Nodup ∧
      (∀ ownName,
          getWorkspaceName reg (buildInfoPathToWorkspacePath buildInfoPath) = some ownName →
            ownName ∉ deps) ∧
      ∀ n ∈ deps, ∃ wp ∈ getWatchedWorkspacePaths reg,
        getWorkspaceName reg wp = some n ∧
        ∃ f ∈ collectBuildInfoFiles bi,
          isFileBelongsToWorkspace (buildInfoFileToWorkspaceFile buildInfoPath f) wp = true := by
  intro reg buildInfoPath bi deps h
  unfold getBuildInfoDependencies at h
  cases hown : getWorkspaceName reg (buildInfoPathToWorkspacePath buildInfoPath) with
  | none => rw [hown] at h; simp at h
  | some workspaceName =>
    rw [hown] at h
    obtain ⟨h1, h2, h3⟩ :=
      buildInfoDepStep_fold_spec reg buildInfoPath workspaceName
        (collectBuildInfoFiles bi) [] deps h (List.nodup_nil) (List.not_mem_nil _)
    refine ⟨h1, ?_, ?_⟩
    · intro ownName hname
      cases hname
      exact h2
    · intro n hn
      rcases h3 n hn with hl | ⟨f, hf, wp, hfind, hname, _⟩
      · simp at hl
      · exact ⟨wp, List.mem_of_find?_eq_some hfind, hname,
          f, hf, List.find?_some hfind⟩

/-- C1 witness: the decoded dependency set of a concrete empty artifact
satisfies the specification. -/
theorem getBuildInfoDependencies_spec_witness :
    ([] : List String).Nodup ∧
    (∀ ownName,
        getWorkspaceName ⟨[("a", "A")], [], [], []⟩
            (buildInfoPathToWorkspacePath "a/.ts/tsconfig.tsbuildinfo") = some ownName →
          ownName ∉ ([] : List String)) ∧
    ∀ n ∈ ([] : List String), ∃ wp ∈ getWatchedWorkspacePaths ⟨[("a", "A")], [], [], []⟩,
      getWorkspaceName ⟨[("a", "A")], [], [], []⟩ wp = some n ∧
      ∃ f ∈ collectBuildInfoFiles ⟨[], none, none⟩,
        isFileBelongsToWorkspace
          (buildInfoFileToWorkspaceFile "a/.ts/tsconfig.tsbuildinfo" f) wp = true :=
  getBuildInfoDependencies_spec ⟨[("a", "A")], [], [], []⟩ "a/.ts/tsconfig.tsbuildinfo"
    ⟨[], none, none⟩ [] (by decide)

/-! #### Rename propagation lemmas -/

/-- Reduction of the filesystem-level rename of one dependent. -/
theorem renameWorkspaceInPackageDependencies_eq (fs : List (String × PackageDoc))
    (workspacePath prevName newName : String) :
    renameWorkspaceInPackageDependencies fs workspacePath prevName newName =
      (lookupA (getWorkspacePackagePath workspacePath) fs).map
        (fun pkg =>
          setA (getWorkspacePackagePath workspacePath)
            (renameWorkspaceInPackageDependenciesMutator pkg prevName newName) fs) := by
  unfold renameWorkspaceInPackageDependencies
  cases lookupA (getWorkspacePackagePath workspacePath) fs <;> rfl

/-- Distinct workspace paths of the registry resolve to distinct package
paths (no two registered workspaces share a `package.json` location). -/
def WorkspacePackagePathsInjective (reg : RegState) : Prop :=
  (reg.workspaceNames.map (fun kv => getWorkspacePackagePath kv.1)).Nodup

instance (reg : RegState) : Decidable (WorkspacePackagePathsInjective reg) := by
  unfold WorkspacePackagePathsInjective
  infer_instance

theorem getWorkspacePath_mem (reg : RegState) (n p : String)
    (h : getWorkspacePath reg n = some p) : (p, n) ∈ reg.workspaceNames := by
  unfold getWorkspacePath at h
  rcases Option.map_eq_some'.mp h with ⟨kv, hfind, hfst⟩
  have hpred := List.find?_some hfind
  have hmem := List.mem_of_find?_eq_some hfind
  obtain ⟨kp, kn⟩ := kv
  simp only [decide_eq_true_eq] at hpred
  simp only at hpred hfst
  subst hpred
  subst hfst
  exact hmem

theorem getWorkspacePackagePath_inj (reg : RegState)
    (hinj : WorkspacePackagePathsInjective reg) (n₁ n₂ p₁ p₂ : String)
    (hne : n₁ ≠ n₂) (h1 : getWorkspacePath reg n₁ = some p₁)
    (h2 : getWorkspacePath reg n₂ = some p₂) :
    getWorkspacePackagePath p₁ ≠ getWorkspacePackagePath p₂ := by
  intro heq
  have m1 := getWorkspacePath_mem reg n₁ p₁ h1
  have m2 := getWorkspacePath_mem reg n₂ p₂ h2
  have := List.inj_on_of_nodup_map hinj m1 m2 heq
  exact hne (congrArg Prod.snd this)

theorem renameFold_preserves (reg : RegState) (prevName newName : String) :
    ∀ (entries : List (String × List String)) (fsAcc fs' : List (String × PackageDoc))
      (q : String),
      entries.foldlM (renameStep reg prevName newName) fsAcc = some fs' →
      (∀ e ∈ entries, ∀ wsP, getWorkspacePath reg e.1 = some wsP →
        getWorkspacePackagePath wsP ≠ q) →
      lookupA q fs' = lookupA q fsAcc := by
  intro entries
  induction entries with
  | nil =>
    intro fsAcc fs' q h _
    simp only [List.foldlM_nil, Option.pure_def, Option.some.injEq] at h
    subst h
    rfl
  | cons e t ih =>
    intro fsAcc fs' q h hq
    rw [List.foldlM_cons] at h
    cases hstep : renameStep reg prevName newName fsAcc e with
    | none => rw [hstep] at h; simp at h
    | some fs₁ =>
      rw [hstep] at h
      simp only [Option.bind_eq_bind, Option.some_bind] at h
      have htail := ih fs₁ fs' q h (fun e' he' => hq e' (List.mem_cons_of_mem e he'))
      rw [htail]
      unfold renameStep at hstep
      split at hstep
      · simp only [Option.some.injEq] at hstep
        subst hstep
        rfl
      · rename_i hcond
        split at hstep
        · exact Option.noConfusion hstep
        · rename_i wsP hpath
          rw [renameWorkspaceInPackageDependencies_eq] at hstep
          rcases Option.map_eq_some'.mp hstep with ⟨pkg, hpkg, hset⟩
          subst hset
          exact lookupA_setA_ne _ _ _ _
            (fun heq => hq e (List.mem_cons_self e t) wsP hpath heq.symm)

theorem renameFold_spec (reg : RegState) (prevName newName : String)
    (hinj : WorkspacePackagePathsInjective reg) :
    ∀ (entries : List (String × List String)) (fsAcc fs' : List (String × PackageDoc)),
      entries.foldlM (renameStep reg prevName newName) fsAcc = some fs' →
      (entries.map Prod.fst).Nodup →
      ∀ e ∈ entries, e.1 ≠ newName → prevName ∈ e.2 →
        ∃ wsPath pkg, getWorkspacePath reg e.1 = some wsPath ∧
          lookupA (getWorkspacePackagePath wsPath) fsAcc = some pkg ∧
          lookupA (getWorkspacePackagePath wsPath) fs' =
            some (renameWorkspaceInPackageDependenciesMutator pkg prevName newName) := by
  intro entries
  induction entries with
  | nil =>
    intro fsAcc fs' _ _ e he
    simp at he
  | cons e0 t ih =>
    intro fsAcc fs' h hnd e he hene heprev
    rw [List.foldlM_cons] at h
    cases hstep : renameStep reg prevName newName fsAcc e0 with
    | none => rw [hstep] at h; simp at h
    | some fs₁ =>
      rw [hstep] at h
      simp only [Option.bind_eq_bind, Option.some_bind] at h
      simp only [List.map_cons, List.nodup_cons] at hnd
      rcases List.mem_cons.mp he with rfl | het
      · -- the head entry is the dependent in question
        unfold renameStep at hstep
        rw [if_neg (by
          push_neg
          exact ⟨hene, by simpa using List.elem_eq_true_of_mem heprev⟩)] at hstep
        split at hstep
        · exact Option.noConfusion hstep
        · rename_i wsP hpath
          rw [renameWorkspaceInPackageDependencies_eq] at hstep
          rcases Option.map_eq_some'.mp hstep with ⟨pkg, hpkg, hset⟩
          subst hset
          refine ⟨wsP, pkg, hpath, hpkg, ?_⟩
          rw [renameFold_preserves reg prevName newName t _ fs' _ h ?_,
            lookupA_setA_self]
          intro e' he' wsP' hpath' heq
          have hne : e'.1 ≠ e.1 := by
            intro hfst
            exact hnd.1 (hfst ▸ List.mem_map.mpr ⟨e', he', rfl⟩)
          exact getWorkspacePackagePath_inj reg hinj e'.1 e.1 wsP' wsP hne hpath' hpath heq
      · -- the dependent sits in the tail
        obtain ⟨wsPath, pkg, hpath, hlook, hres⟩ := ih fs₁ fs' h hnd.2 e het hene heprev
        refine ⟨wsPath, pkg, hpath, ?_, hres⟩
        rw [← hlook]
        unfold renameStep at hstep
        split at hstep
        · simp only [Option.some.injEq] at hstep
          subst hstep
          rfl
        · split at hstep
          · exact Option.noConfusion hstep
          · rename_i wsP0 hpath0
            rw [renameWorkspaceInPackageDependencies_eq] at hstep
            rcases Option.map_eq_some'.mp hstep with ⟨pkg0, hpkg0, hset⟩
            subst hset
            have hne : e.1 ≠ e0.1 := by
              intro hfst
              exact hnd.1 (hfst ▸ List.mem_map.mpr ⟨e, het, rfl⟩)
            rw [lookupA_setA_ne _ _ _ _
              (getWorkspacePackagePath_inj reg hinj e.1 e0.1 wsPath wsP0 hne hpath hpath0)]

theorem rename_map_lookups (l : List (String × String)) (prevName newName : String)
    (hne : prevName ≠ newName) (hnd : NodupKeys l) :
    lookupA prevName (sortObject (setA newName "*" (delA prevName l))) = none ∧
    lookupA newName (sortObject (setA newName "*" (delA prevName l))) = some "*" := by
  have hnd' : NodupKeys (setA newName "*" (delA prevName l)) :=
    nodupKeys_setA _ _ _ (nodupKeys_delA _ _ hnd)
  constructor
  · rw [lookupA_sortObject _ _ hnd', lookupA_setA_ne _ _ _ _ hne, lookupA_delA_self]
  · rw [lookupA_sortObject _ _ hnd', lookupA_setA_self]

/-- C4 counterexample: rename `a → a2` with one dependent `b` whose
manifest lists `a` in both `dependencies` and `devDependencies`.  The
`dependencies` rewrite is guarded by `!pkg.devDependencies?.[prevName]`,
so only `devDependencies` is rewritten and the dependent's document
retains the dependency entry `a` in `dependencies`. -/
theorem renameWorkspaceReferences_retains_dependencies_key :
    renameWorkspaceReferences ⟨[("w1", "a"), ("w2", "b")], [("b", ["a"])], [], []⟩
        [("w2/package.json", ⟨some "b", some [("a", "*")], some [("a", "*")], none⟩)]
        "a" "a2" =
      some [("w2/package.json",
        ⟨some "b", some [("a", "*")], some [("a2", "*")], none⟩)] ∧
    lookupA "a"
        ((⟨some "b", some [("a", "*")], some [("a2", "*")], none⟩ :
            PackageDoc).dependencies.getD []) = some "*" := by
  refine ⟨by decide, by decide⟩

/-- C4 (amended): after `renameWorkspaceReferences(prevName, newName)`
every registered dependent (excluding the renamed workspace) has its
manifest replaced by the rename mutator's image; the mutator rewrites
the key in `devDependencies` when `devDependencies` holds the previous
name, and otherwise rewrites it in `dependencies` when a `dependencies`
map exists — so after the rename no dependent retains the previous name
in `devDependencies`, but a manifest listing the name in both maps
retains the stale `dependencies` entry. -/
theorem renameWorkspaceReferences_spec :
    (∀ (pkg : PackageDoc) (prevName newName : String),
        prevName ≠ newName →
        NodupKeys (pkg.dependencies.getD []) →
        NodupKeys (pkg.devDependencies.getD []) →
        (truthyLookup pkg.devDependencies prevName = true →
          (renameWorkspaceInPackageDependenciesMutator pkg prevName newName).dependencies =
              pkg.dependencies ∧
            ∃ dd,
              (renameWorkspaceInPackageDependenciesMutator pkg prevName
                    newName).devDependencies = some dd ∧
                lookupA prevName dd = none ∧ lookupA newName dd = some "*") ∧
        (truthyLookup pkg.devDependencies prevName = false →
          (renameWorkspaceInPackageDependenciesMutator pkg prevName
                newName).devDependencies = pkg.devDependencies ∧
            (pkg.dependencies = none →
              renameWorkspaceInPackageDependenciesMutator pkg prevName newName = pkg) ∧
            ∀ d0, pkg.dependencies = some d0 →
              ∃ d,
                (renameWorkspaceInPackageDependenciesMutator pkg prevName
                      newName).dependencies = some d ∧
                  lookupA prevName d = none ∧ lookupA newName d = some "*")) ∧
    (∀ (reg : RegState) (fs fs' : List (String × PackageDoc)) (prevName newName : String),
        WorkspacePackagePathsInjective reg →
        (reg.workspaceDependencies.map Prod.fst).Nodup →
        renameWorkspaceReferences reg fs prevName newName = some fs' →
        ∀ entry ∈ reg.workspaceDependencies, entry.1 ≠ newName → prevName ∈ entry.2 →
          ∃ wsPath pkg, getWorkspacePath reg entry.1 = some wsPath ∧
            lookupA (getWorkspacePackagePath wsPath) fs = some pkg ∧
            lookupA (getWorkspacePackagePath wsPath) fs' =
              some (renameWorkspaceInPackageDependenciesMutator pkg prevName newName)) := by
  constructor
  · intro pkg prevName newName hne hd hdd
    constructor
    · intro htrue
      have hsome : pkg.devDependencies.isSome = true := by
        cases hdev : pkg.devDependencies
        · rw [hdev] at htrue
          simp [truthyLookup] at htrue
        · rfl
      unfold renameWorkspaceInPackageDependenciesMutator
      simp only [htrue, hsome, Bool.not_true, Bool.and_false, Bool.false_eq_true,
        if_false, Bool.and_true, if_true]
      refine ⟨trivial, _, rfl, rename_map_lookups _ _ _ hne hdd⟩
    · intro hfalse
      unfold renameWorkspaceInPackageDependenciesMutator
      simp only [hfalse, Bool.not_false, Bool.and_true, Bool.and_false,
        Bool.false_eq_true, if_false]
      cases hdep : pkg.dependencies with
      | none =>
        simp only [Option.isSome_none, Bool.false_and, Bool.false_eq_true, if_false]
        exact ⟨trivial, fun _ => trivial, fun d0 h => Option.noConfusion h⟩
      | some d0 =>
        simp only [Option.isSome_some, Bool.true_and, if_true]
        refine ⟨trivial, fun h => Option.noConfusion h, fun d1 h1 => ?_⟩
        have hd1 : d1 = d0 := by
          injection h1 with h2
          exact h2.symm
        subst hd1
        refine ⟨_, rfl, ?_⟩
        have hndd : NodupKeys d1 := by
          rw [hdep] at hd
          simpa using hd
        simpa using rename_map_lookups d1 _ _ hne hndd
  · intro reg fs fs' prevName newName hinj hnd h entry hmem hene heprev
    exact renameFold_spec reg prevName newName hinj reg.workspaceDependencies fs fs' h
      hnd entry hmem hene heprev

/-- C4 witness: the amended rename specification applied to a concrete
registry with one dependent whose manifest lists the previous name in
`dependencies` only. -/
theorem renameWorkspaceReferences_spec_witness :
    ∃ wsPath pkg,
      getWorkspacePath ⟨[("w1", "a"), ("w2", "b")], [("b", ["a"])], [], []⟩ "b" =
          some wsPath ∧
      lookupA (getWorkspacePackagePath wsPath)
          [("w2/package.json",
            (⟨some "b", some [("a", "*")], none, none⟩ : PackageDoc))] = some pkg ∧
      lookupA (getWorkspacePackagePath wsPath)
          [("w2/package.json",
            (⟨some "b", some [("a2", "*")], none, none⟩ : PackageDoc))] =
        some (renameWorkspaceInPackageDependenciesMutator pkg "a" "a2") :=
  renameWorkspaceReferences_spec.2 ⟨[("w1", "a"), ("w2", "b")], [("b", ["a"])], [], []⟩
    [("w2/package.json", ⟨some "b", some [("a", "*")], none, none⟩)]
    [("w2/package.json", ⟨some "b", some [("a2", "*")], none, none⟩)]
    "a" "a2" (by decide) (by decide) (by decide) ("b", ["a"]) (by decide) (by decide)
    (by decide)

/-! #### Reference-sync lemmas -/

/-- The alias tables of a document all have duplicate-free keys (an
invariant of every JSON-parsed document). -/
def PathsNodup (c : TSConfigDoc) : Prop :=
  ∀ co ps, c.compilerOptions = some co → co.paths = some ps → NodupKeys ps

theorem pathsNodup_of_none (c : TSConfigDoc) (h : c.compilerOptions = none) :
    PathsNodup c := by
  intro co ps h1 h2
  rw [h] at h1
  exact Option.noConfusion h1

theorem tsconfig_set_references_self (c : TSConfigDoc) (refs : List String)
    (h : c.references = some refs) : { c with references := some refs } = c := by
  cases c
  simp only at h
  simp [h]

theorem configure_post (c : TSConfigDoc) :
    isCompilerOptionsSatisfactory (mutateConfigureWorkspaceTSConfig c).1.compilerOptions = true := by
  unfold mutateConfigureWorkspaceTSConfig
  by_cases hs : isCompilerOptionsSatisfactory c.compilerOptions = true
  · rw [if_pos hs]
    exact hs
  · rw [if_neg hs]
    rfl

theorem mutateConfigure_of_sat (c : TSConfigDoc)
    (h : isCompilerOptionsSatisfactory c.compilerOptions = true) :
    mutateConfigureWorkspaceTSConfig c = (c, false) := by
  unfold mutateConfigureWorkspaceTSConfig
  rw [if_pos h]

theorem sat_paths_update (o : Option CompilerOptions) (ps : List (String × List String)) :
    isCompilerOptionsSatisfactory
        (some { o.getD emptyCompilerOptions with paths := some ps }) =
      isCompilerOptionsSatisfactory o := by
  cases o with
  | none => rfl
  | some co => rfl

theorem pathsNodup_base (c : TSConfigDoc) (h : PathsNodup c) :
    NodupKeys ((c.compilerOptions.getD emptyCompilerOptions).paths.getD []) := by
  cases hco : c.compilerOptions with
  | none => exact List.nodup_nil
  | some co0 =>
    simp only [Option.getD_some]
    cases hps : co0.paths with
    | none => exact List.nodup_nil
    | some ps0 =>
      simp only [Option.getD_some]
      exact h co0 ps0 hco hps

theorem pathsNodup_configure (c : TSConfigDoc) (h : PathsNodup c) :
    PathsNodup (mutateConfigureWorkspaceTSConfig c).1 := by
  unfold mutateConfigureWorkspaceTSConfig
  by_cases hs : isCompilerOptionsSatisfactory c.compilerOptions = true
  · rw [if_pos hs]
    exact h
  · rw [if_neg hs]
    intro co' ps h1 h2
    simp only [Option.some.injEq] at h1
    subst h1
    have h2' : (c.compilerOptions.getD emptyCompilerOptions).paths = some ps := h2
    cases hco : c.compilerOptions with
    | none =>
      rw [hco] at h2'
      exact Option.noConfusion h2'
    | some co0 =>
      rw [hco] at h2'
      exact h co0 ps hco h2'

theorem nodupKeys_removeFold (rs : List String) (ps : List (String × List String))
    (h : NodupKeys ps) : NodupKeys (rs.foldl removeAliasStep ps) := by
  induction rs generalizing ps with
  | nil => exact h
  | cons r t ih =>
    rw [List.foldl_cons]
    apply ih
    unfold removeAliasStep
    cases findRedundantAliases ps r with
    | none => exact h
    | some a => exact nodupKeys_delA _ _ (nodupKeys_delA _ _ h)

theorem nodupKeys_addFold (reg : RegState) (ws : String) :
    ∀ (ms : List String) (ps ps' : List (String × List String)),
      ms.foldlM (addAliasStep reg ws) ps = some ps' →
      NodupKeys ps → NodupKeys ps' := by
  intro ms
  induction ms with
  | nil =>
    intro ps ps' h hnd
    simp only [List.foldlM_nil, Option.pure_def, Option.some.injEq] at h
    subst h
    exact hnd
  | cons m t ih =>
    intro ps ps' h hnd
    rw [List.foldlM_cons] at h
    cases hstep : addAliasStep reg ws ps m with
    | none => rw [hstep] at h; simp at h
    | some ps₁ =>
      rw [hstep] at h
      simp only [Option.bind_eq_bind, Option.some_bind] at h
      refine ih ps₁ ps' h ?_
      unfold addAliasStep at hstep
      split at hstep
      · exact Option.noConfusion hstep
      · simp only [Option.some.injEq] at hstep
        subst hstep
        exact nodupKeys_setA _ _ _ (nodupKeys_setA _ _ _ hnd)

theorem mutateRemoveRedundantAliases_facts (c : TSConfigDoc) (rs : List String) :
    (mutateRemoveRedundantAliases c rs).references = c.references ∧
    isCompilerOptionsSatisfactory (mutateRemoveRedundantAliases c rs).compilerOptions =
      isCompilerOptionsSatisfactory c.compilerOptions ∧
    (PathsNodup c → PathsNodup (mutateRemoveRedundantAliases c rs)) := by
  refine ⟨rfl, sat_paths_update c.compilerOptions _, ?_⟩
  intro h co' ps h1 h2
  simp only [mutateRemoveRedundantAliases, Option.some.injEq] at h1
  subst h1
  have h2' : some (rs.foldl removeAliasStep
      ((c.compilerOptions.getD emptyCompilerOptions).paths.getD [])) = some ps := h2
  simp only [Option.some.injEq] at h2'
  subst h2'
  exact nodupKeys_removeFold rs _ (pathsNodup_base c h)

theorem mutateAddMissingAliases_facts (reg : RegState) (c c' : TSConfigDoc)
    (ms : List String) (ws : String)
    (h : mutateAddMissingAliases reg c ms ws = some c') :
    c'.references = c.references ∧
    isCompilerOptionsSatisfactory c'.compilerOptions =
      isCompilerOptionsSatisfactory c.compilerOptions ∧
    (PathsNodup c → PathsNodup c') := by
  unfold mutateAddMissingAliases at h
  rcases Option.map_eq_some'.mp h with ⟨ps, hfold, hc'⟩
  subst hc'
  refine ⟨rfl, sat_paths_update c.compilerOptions _, ?_⟩
  intro hnd co' ps' h1 h2
  simp only [Option.some.injEq] at h1
  subst h1
  have h2' : some ps = some ps' := h2
  simp only [Option.some.injEq] at h2'
  subst h2'
  exact nodupKeys_addFold reg ws ms _ ps hfold (pathsNodup_base c hnd)

theorem getRedundantReferences_self (l : List String) :
    getRedundantReferences l l = [] := by
  unfold getRedundantReferences
  rw [List.filter_eq_nil_iff]
  intro a ha
  simpa using List.elem_eq_true_of_mem ha

theorem getMissingReferences_self (l : List String) :
    getMissingReferences l l = [] := by
  unfold getMissingReferences
  rw [List.filter_eq_nil_iff]
  intro a ha
  simpa using List.elem_eq_true_of_mem ha

theorem updateRefsAliases_refl (reg : RegState) (c1 : TSConfigDoc) (refs : List String)
    (ws : String) : updateRefsAliases reg c1 refs refs ws = some c1 := by
  simp only [updateRefsAliases]
  rw [getRedundantReferences_self, getMissingReferences_self]
  simp

theorem updateRefsAliases_some (reg : RegState) (c1 c3 : TSConfigDoc)
    (current refs : List String) (ws : String)
    (h : updateRefsAliases reg c1 current refs ws = some c3) :
    c3.references = c1.references ∧
    isCompilerOptionsSatisfactory c3.compilerOptions =
      isCompilerOptionsSatisfactory c1.compilerOptions ∧
    (PathsNodup c1 → PathsNodup c3) := by
  simp only [updateRefsAliases] at h
  by_cases hred : (getRedundantReferences current refs).length ≠ 0
  · rw [if_pos hred] at h
    obtain ⟨r1, r2, r3⟩ := mutateRemoveRedundantAliases_facts c1 (getRedundantReferences current refs)
    by_cases hmiss : (getMissingReferences current refs).length ≠ 0
    · rw [if_pos hmiss] at h
      obtain ⟨a1, a2, a3⟩ := mutateAddMissingAliases_facts reg _ c3 _ ws h
      exact ⟨a1.trans r1, a2.trans r2, fun hnd => a3 (r3 hnd)⟩
    · rw [if_neg hmiss] at h
      simp only [Option.some.injEq] at h
      subst h
      exact ⟨r1, r2, r3⟩
  · rw [if_neg hred] at h
    by_cases hmiss : (getMissingReferences current refs).length ≠ 0
    · rw [if_pos hmiss] at h
      exact mutateAddMissingAliases_facts reg _ c3 _ ws h
    · rw [if_neg hmiss] at h
      simp only [Option.some.injEq] at h
      subst h
      exact ⟨rfl, rfl, fun hnd => hnd⟩

theorem pathsDeepEqual_refl (ps : List (String × List String)) (h : NodupKeys ps) :
    pathsDeepEqual ps ps = true := by
  unfold pathsDeepEqual
  rw [Bool.and_eq_true]
  refine ⟨by simp, ?_⟩
  rw [List.all_eq_true]
  intro kv hkv
  rw [mem_lookupA kv.1 kv.2 ps h hkv]
  simp

theorem tsConfigDeepEqual_refl (c : TSConfigDoc) (h : PathsNodup c) :
    tsConfigDeepEqual c c = true := by
  have hco : optionDeepEqualWith compilerOptionsDeepEqual c.compilerOptions
      c.compilerOptions = true := by
    cases hc : c.compilerOptions with
    | none => rfl
    | some co =>
      show compilerOptionsDeepEqual co co = true
      have hps : optionDeepEqualWith pathsDeepEqual co.paths co.paths = true := by
        cases hp : co.paths with
        | none => rfl
        | some ps => exact pathsDeepEqual_refl ps (h co ps hc hp)
      unfold compilerOptionsDeepEqual
      rw [hps]
      simp
  unfold tsConfigDeepEqual
  rw [hco]
  simp

theorem mutateUpdateReferences_some (reg : RegState) (c : TSConfigDoc)
    (refs : List String) (ws : String) (c' : TSConfigDoc) (b : Bool)
    (h : mutateUpdateReferences reg c refs ws = some (c', b)) :
    (getWorkspaceName reg ws).isSome = true ∧
    c'.references = some refs ∧
    isCompilerOptionsSatisfactory c'.compilerOptions =
      isCompilerOptionsSatisfactory c.compilerOptions ∧
    (PathsNodup c → PathsNodup c') := by
  unfold mutateUpdateReferences at h
  split at h
  · exact Option.noConfusion h
  · rename_i n hn
    split at h
    · exact Option.noConfusion h
    · rename_i c3 hc3
      simp only [Option.some.injEq, Prod.mk.injEq] at h
      obtain ⟨hc', _⟩ := h
      subst hc'
      obtain ⟨u1, u2, u3⟩ := updateRefsAliases_some reg _ _ _ refs ws hc3
      exact ⟨by rw [hn]; rfl, by rw [u1], by rw [u2],
        fun hnd => u3 (fun co ps h1 h2 => hnd co ps h1 h2)⟩

theorem mutateUpdateReferences_fixed (reg : RegState) (c : TSConfigDoc)
    (refs : List String) (ws n : String) (hn : getWorkspaceName reg ws = some n)
    (hrefs : c.references = some refs) (hnd : PathsNodup c) :
    mutateUpdateReferences reg c refs ws = some (c, false) := by
  have hc1 : { c with references := some refs } = c :=
    tsconfig_set_references_self c refs hrefs
  unfold mutateUpdateReferences
  rw [hn]
  show (match updateRefsAliases reg { c with references := some refs }
        (c.references.getD []) refs ws with
      | none => none
      | some c3 => some (c3, !(tsConfigDeepEqual c c3))) = some (c, false)
  rw [hrefs, hc1]
  show (match updateRefsAliases reg c refs refs ws with
      | none => none
      | some c3 => some (c3, !(tsConfigDeepEqual c c3))) = some (c, false)
  rw [updateRefsAliases_refl]
  show some (c, !(tsConfigDeepEqual c c)) = some (c, false)
  rw [tsConfigDeepEqual_refl c hnd]
  rfl

/-- C3: `updateReferences` is idempotent with respect to disk writes:
whatever document the first call leaves on disk, a second call with the
same target dependency set mutates it to a deep-equal document and skips
the write — so two consecutive calls perform at most one write.  (The
`PathsNodup` hypothesis is the JSON-object invariant that no alias table
holds a duplicate key.) -/
theorem updateReferences_idempotent :
    ∀ (reg : RegState) (workspacePath : String) (deps : List String)
      (tsConfig tsConfig' : TSConfigDoc) (wrote : Bool),
      PathsNodup tsConfig →
      updateReferences reg workspacePath deps tsConfig = some (tsConfig', wrote) →
      updateReferences reg workspacePath deps tsConfig' = some (tsConfig', false) := by
  intro reg ws deps c c' w hnd h
  unfold updateReferences at h ⊢
  cases hrefs : referencesFromWorkspaceNames reg ws deps with
  | none =>
    rw [hrefs] at h
    exact Option.noConfusion h
  | some refs =>
    rw [hrefs] at h
    change (match mutateUpdateReferences reg (mutateConfigureWorkspaceTSConfig c).1
          refs ws with
        | none => none
        | some m2 =>
          if (mutateConfigureWorkspaceTSConfig c).2 || m2.2 then some (m2.1, true)
          else some (c, false)) = some (c', w) at h
    cases hmu : mutateUpdateReferences reg (mutateConfigureWorkspaceTSConfig c).1 refs ws with
    | none =>
      rw [hmu] at h
      exact Option.noConfusion h
    | some m2 =>
      rw [hmu] at h
      obtain ⟨m2c, m2b⟩ := m2
      change (if ((mutateConfigureWorkspaceTSConfig c).2 || m2b) = true
          then some (m2c, true) else some (c, false)) = some (c', w) at h
      by_cases hcase : ((mutateConfigureWorkspaceTSConfig c).2 || m2b) = true
      · rw [if_pos hcase] at h
        simp only [Option.some.injEq, Prod.mk.injEq] at h
        obtain ⟨hc', hw⟩ := h
        subst hc'
        obtain ⟨hname, hrefs2, hsat2, hndf⟩ :=
          mutateUpdateReferences_some reg (mutateConfigureWorkspaceTSConfig c).1 refs ws
            m2c m2b hmu
        have hsat3 : isCompilerOptionsSatisfactory m2c.compilerOptions = true := by
          rw [hsat2, configure_post c]
        have hnd3 : PathsNodup m2c := hndf (pathsNodup_configure c hnd)
        obtain ⟨n, hn⟩ := Option.isSome_iff_exists.mp hname
        change (match mutateUpdateReferences reg (mutateConfigureWorkspaceTSConfig m2c).1
              refs ws with
            | none => none
            | some m2' =>
              if (mutateConfigureWorkspaceTSConfig m2c).2 || m2'.2 then some (m2'.1, true)
              else some (m2c, false)) = some (m2c, false)
        rw [mutateConfigure_of_sat m2c hsat3]
        rw [mutateUpdateReferences_fixed reg m2c refs ws n hn hrefs2 hnd3]
        rfl
      · rw [if_neg hcase] at h
        simp only [Option.some.injEq, Prod.mk.injEq] at h
        obtain ⟨hc', hw⟩ := h
        subst hc'
        change (match mutateUpdateReferences reg (mutateConfigureWorkspaceTSConfig c).1
              refs ws with
            | none => none
            | some m2 =>
              if (mutateConfigureWorkspaceTSConfig c).2 || m2.2 then some (m2.1, true)
              else some (c, false)) = some (c, false)
        rw [hmu]
        change (if ((mutateConfigureWorkspaceTSConfig c).2 || m2b) = true
            then some (m2c, true) else some (c, false)) = some (c, false)
        rw [if_neg hcase]

/-- C3 witness: on a concrete empty configuration the first call writes
and the second call returns the same document without writing. -/
theorem updateReferences_idempotent_witness :
    updateReferences ⟨[("a", "A")], [], [], []⟩ "a" []
        ((updateReferences ⟨[("a", "A")], [], [], []⟩ "a" []
            ⟨none, none, none, none, none⟩).getD (⟨none, none, none, none, none⟩, false)).1 =
      some (((updateReferences ⟨[("a", "A")], [], [], []⟩ "a" []
          ⟨none, none, none, none, none⟩).getD (⟨none, none, none, none, none⟩, false)).1,
        false) := by
  have h :=
    updateReferences_idempotent ⟨[("a", "A")], [], [], []⟩ "a" []
      ⟨none, none, none, none, none⟩
      ((updateReferences ⟨[("a", "A")], [], [], []⟩ "a" []
          ⟨none, none, none, none, none⟩).getD (⟨none, none, none, none, none⟩, false)).1
      ((updateReferences ⟨[("a", "A")], [], [], []⟩ "a" []
          ⟨none, none, none, none, none⟩).getD (⟨none, none, none, none, none⟩, false)).2
      (pathsNodup_of_none ⟨none, none, none, none, none⟩ rfl)
      (by decide)
  exact h

end Tsrf
